import Mathlib

set_option maxRecDepth 4000

/-!
Shallow embedding of the block-mapped file data path of the osfs filesystem
(`src/file.c`: `osfs_read` and `osfs_write`).

Machine integers of the C code (`size_t`, `loff_t`, `uint32_t`) are modelled as
`Nat`: positions and lengths reaching the data path are non-negative
(`default_llseek` rejects negative offsets) and no arithmetic in the data path
can overflow at realistic sizes.  The external collaborators are modelled as
oracles passed to each call: the block allocator as a list of answers consumed
in order, and the user-space copy routines as a boolean fault oracle indexed by
the copy attempt number within the call.
-/

/-- Modelled from the spec: `BLOCK_SIZE` is defined in `osfs.h`, which is not
among the provided sources.  Spec section 6 fixes it as the block size in
bytes, and the section 8 scenarios use 4096 bytes per block. -/
def BLOCK_SIZE : Nat := 4096

/-- Error outcomes of the data path: `EFAULT` for a failed user-space copy,
`ENOSPC` for the capacity ceiling or block-allocator exhaustion. -/
inductive Err where
  | EFAULT : Err
  | ENOSPC : Err
deriving DecidableEq

/-- The on-disk inode fields touched by `osfs_read` and `osfs_write`
(`osfs_inode` in `file.c`): size, allocated block count, the logical-to-
physical block map, and the two timestamps.  The block map is a total
function from logical index to physical block number; indices at or beyond
`i_blocks` hold stale values, exactly like the unused tail of the C array. -/
structure OsfsInode where
  i_size : Nat
  i_blocks : Nat
  i_blocks_array : Nat → Nat
  i_mtime : Nat
  i_ctime : Nat

/-- Filesystem state visible to the data path: the inode, the raw data-block
bytes (`sb_info->data_blocks`, addressed by absolute byte offset), and the
inode-dirty flag set by `mark_inode_dirty`. -/
structure FsState where
  inode : OsfsInode
  disk : Nat → Nat
  dirty : Bool

/-- Pointwise store into the block map: `i_blocks_array[i] = v`. -/
def setIdx (f : Nat → Nat) (i v : Nat) : Nat → Nat :=
  fun x => if x = i then v else f x

/-- `copy_from_user` of `chunk` bytes from the user buffer at offset `srcOff`
into the data area starting at absolute byte address `base`. -/
def writeBytes (disk : Nat → Nat) (base : Nat) (buf : Nat → Nat)
    (srcOff chunk : Nat) : Nat → Nat :=
  fun a => if base ≤ a ∧ a < base + chunk then buf (srcOff + (a - base)) else disk a

/-- Per-iteration chunk arithmetic shared by the read and write loops
(`file.c` lines 30-34 and 88-122): logical block index, offset inside the
block, and the chunk length clipped to the block end and the remaining
request length. -/
def chunkOf (pos len : Nat) : Nat × Nat × Nat :=
  (pos / BLOCK_SIZE, pos % BLOCK_SIZE, min (BLOCK_SIZE - pos % BLOCK_SIZE) len)

/-- Modelled from the spec: `osfs_alloc_data_block` is an external collaborator
(spec sections 1 and 6: `allocate one free physical block, fails when the
device is full`).  The allocator is an oracle list of answers; a successful
attempt consumes the head, a failed attempt leaves the oracle unchanged. -/
def allocAttempt (allocs : List (Option Nat)) : Option Nat × List (Option Nat) :=
  match allocs with
  | Option.some p :: rest => (Option.some p, rest)
  | _ => (Option.none, allocs)

/-- `true` when the next allocation attempt against the oracle fails. -/
def allocFails : List (Option Nat) → Bool
  | Option.some _ :: _ => false
  | _ => true

/-- Result of the transfer loop inside `osfs_write`: the state after the loop,
the position cursor `*ppos`, `bytes_written`, the remaining allocator oracle,
and `some e` when the loop was left through an early `return` statement. -/
structure WLoop where
  st : FsState
  pos : Nat
  bw : Nat
  allocs : List (Option Nat)
  err : Option Err

/-- The `while (len > 0)` loop of `osfs_write` (`file.c` lines 86-138).  The
first `Nat` argument is structural fuel; every iteration consumes at least one
byte of `len`, so fuel `len` is always enough.  Arguments after the fuel:
current state, `*ppos`, remaining `len`, `bytes_written`, the copy-attempt
counter for the fault oracle, and the allocator oracle. -/
def osfs_write_loop (maxExtents : Nat) (buf : Nat → Nat) (faults : Nat → Bool) :
    Nat → FsState → Nat → Nat → Nat → Nat → List (Option Nat) → WLoop
  | 0, st, pos, _, bw, _, allocs => ⟨st, pos, bw, allocs, Option.none⟩
  | fuel + 1, st, pos, len, bw, ci, allocs =>
    if len = 0 then ⟨st, pos, bw, allocs, Option.none⟩
    else
      match chunkOf pos len with
      | (lbi, oib, chunk) =>
        if maxExtents ≤ lbi then
          if 0 < bw then ⟨st, pos, bw, allocs, Option.none⟩
          else ⟨st, pos, bw, allocs, Option.some Err.ENOSPC⟩
        else
          match (if st.inode.i_blocks ≤ lbi then
                   match allocAttempt allocs with
                   | (Option.some p, rest) =>
                     Option.some (p,
                       { st with inode := { st.inode with
                           i_blocks_array := setIdx st.inode.i_blocks_array lbi p,
                           i_blocks := st.inode.i_blocks + 1 } }, rest)
                   | (Option.none, _) => Option.none
                 else
                   Option.some (st.inode.i_blocks_array lbi, st, allocs) :
                 Option (Nat × FsState × List (Option Nat))) with
          | Option.none =>
            if 0 < bw then ⟨st, pos, bw, allocs, Option.none⟩
            else ⟨st, pos, bw, allocs, Option.some Err.ENOSPC⟩
          | Option.some (pbn, st1, allocs1) =>
            if faults ci then ⟨st1, pos, bw, allocs1, Option.some Err.EFAULT⟩
            else
              osfs_write_loop maxExtents buf faults fuel
                { st1 with disk := writeBytes st1.disk (pbn * BLOCK_SIZE + oib) buf bw chunk }
                (pos + chunk) (len - chunk) (bw + chunk) (ci + 1) allocs1

/-- Result of a whole `osfs_write` call: final state, final `*ppos`, remaining
allocator oracle, and the return value (byte count or error). -/
structure WriteResult where
  st : FsState
  pos : Nat
  allocs : List (Option Nat)
  ret : Except Err Nat

/-- Steps 5 and 6 of `osfs_write` (`file.c` lines 140-158): on an early
`return` the error is surfaced with no metadata update; otherwise the size is
extended when `*ppos` moved past it, both timestamps are refreshed and the
inode is marked dirty. -/
def writeFinish (now : Nat) (r : WLoop) : WriteResult :=
  match r.err with
  | Option.some e => ⟨r.st, r.pos, r.allocs, Except.error e⟩
  | Option.none =>
    let ino := r.st.inode
    let ino1 := if ino.i_size < r.pos then { ino with i_size := r.pos } else ino
    ⟨{ r.st with inode := { ino1 with i_mtime := now, i_ctime := now }, dirty := true },
      r.pos, r.allocs, Except.ok r.bw⟩

/-- `osfs_write` (`file.c` lines 68-159).  `maxExtents` is `MAX_EXTENTS` from
the missing `osfs.h`, `now` is the value returned by `current_time`, `buf` the
user buffer, `allocs` the allocator oracle, `faults` the copy fault oracle. -/
def osfs_write (maxExtents now : Nat) (st : FsState) (buf : Nat → Nat)
    (allocs : List (Option Nat)) (faults : Nat → Bool) (pos len : Nat) : WriteResult :=
  writeFinish now (osfs_write_loop maxExtents buf faults len st pos len 0 0 allocs)

/-- Result of the transfer loop inside `osfs_read`: the (unchanged) state, the
position cursor, `bytes_read`, the bytes delivered to the user buffer so far,
and `some e` on an early `return`. -/
structure RLoop where
  st : FsState
  pos : Nat
  br : Nat
  out : List Nat
  err : Option Err

/-- The `while (len > 0)` loop of `osfs_read` (`file.c` lines 29-53), with the
same fuel discipline as the write loop. -/
def osfs_read_loop (faults : Nat → Bool) :
    Nat → FsState → Nat → Nat → Nat → Nat → List Nat → RLoop
  | 0, st, pos, _, br, _, out => ⟨st, pos, br, out, Option.none⟩
  | fuel + 1, st, pos, len, br, ci, out =>
    if len = 0 then ⟨st, pos, br, out, Option.none⟩
    else
      match chunkOf pos len with
      | (lbi, oib, chunk) =>
        if st.inode.i_blocks ≤ lbi then ⟨st, pos, br, out, Option.none⟩
        else
          if faults ci then ⟨st, pos, br, out, Option.some Err.EFAULT⟩
          else
            osfs_read_loop faults fuel st (pos + chunk) (len - chunk) (br + chunk) (ci + 1)
              (out ++ (List.range chunk).map fun j =>
                st.disk (st.inode.i_blocks_array lbi * BLOCK_SIZE + oib + j))

/-- Result of a whole `osfs_read` call: final state, final `*ppos`, the bytes
delivered to the user buffer, and the return value. -/
structure ReadResult where
  st : FsState
  pos : Nat
  out : List Nat
  ret : Except Err Nat

/-- `osfs_read` (`file.c` lines 11-56): end-of-file short circuit, clamp of
`len` to the recorded size, then the transfer loop. -/
def osfs_read (st : FsState) (faults : Nat → Bool) (pos len : Nat) : ReadResult :=
  if st.inode.i_size ≤ pos then ⟨st, pos, [], Except.ok 0⟩
  else
    let len1 := if st.inode.i_size < pos + len then st.inode.i_size - pos else len
    let r := osfs_read_loop faults len1 st pos len1 0 0 []
    match r.err with
    | Option.some e => ⟨r.st, r.pos, r.out, Except.error e⟩
    | Option.none => ⟨r.st, r.pos, r.out, Except.ok r.br⟩

/-- The byte stored at logical file offset `o`: the block map sends the
logical block `o / BLOCK_SIZE` to a physical block, and the byte lives at
offset `o % BLOCK_SIZE` inside it. -/
def logicalByte (st : FsState) (o : Nat) : Nat :=
  st.disk (st.inode.i_blocks_array (o / BLOCK_SIZE) * BLOCK_SIZE + o % BLOCK_SIZE)

/-- The block map is injective on the allocated range: distinct allocated
logical blocks sit in distinct physical blocks. -/
def mapInjective (st : FsState) : Prop :=
  ∀ i j, i < st.inode.i_blocks → j < st.inode.i_blocks → i ≠ j →
    st.inode.i_blocks_array i ≠ st.inode.i_blocks_array j

/-- The allocator oracle hands out pairwise distinct physical blocks, none of
which is already in the allocated range of the block map. -/
def allocsFresh (st : FsState) (allocs : List (Option Nat)) : Prop :=
  (allocs.filterMap id).Nodup ∧
  ∀ p, Option.some p ∈ allocs → ∀ i, i < st.inode.i_blocks →
    st.inode.i_blocks_array i ≠ p

/-- The all-clear fault oracle: no user copy ever fails. -/
def noFaults : Nat → Bool := fun _ => false

/-- An empty, freshly created file (spec section 3 lifecycle):
`size = 0`, `allocated_block_count = 0`. -/
def emptyState : FsState :=
  ⟨⟨0, 0, fun _ => 0, 0, 0⟩, fun _ => 0, false⟩

/-- A file with two allocated blocks, used to exercise existing-block paths. -/
def twoBlockState : FsState :=
  ⟨⟨9000, 2, fun i => i, 0, 0⟩, fun a => a % 256, false⟩

/-- A concrete user buffer. -/
def bufId : Nat → Nat := fun j => j % 256

/-- A fault oracle whose second copy attempt fails. -/
def faultSecond : Nat → Bool := fun k => decide (k = 1)

/-- Number of `copy_from_user` attempts the write loop of `file.c`
(lines 86-138) performs when no copy faults: one per iteration that reaches
the copy, following the same exit conditions as `osfs_write_loop` (length
exhausted, capacity ceiling, allocator failure).  A faulting run performs a
strict subset of these attempts, so index `k` below this count is an attempt
the call actually makes. -/
def write_attempts (maxExtents : Nat) :
    Nat → Nat → Nat → Nat → List (Option Nat) → Nat
  | 0, _, _, _, _ => 0
  | fuel + 1, blocks, pos, len, allocs =>
    if len = 0 then 0
    else if maxExtents ≤ pos / BLOCK_SIZE then 0
    else if blocks ≤ pos / BLOCK_SIZE then
      match allocAttempt allocs with
      | (Option.some _, rest) =>
        1 + write_attempts maxExtents fuel (blocks + 1)
          (pos + min (BLOCK_SIZE - pos % BLOCK_SIZE) len)
          (len - min (BLOCK_SIZE - pos % BLOCK_SIZE) len) rest
      | (Option.none, _) => 0
    else
      1 + write_attempts maxExtents fuel blocks
        (pos + min (BLOCK_SIZE - pos % BLOCK_SIZE) len)
        (len - min (BLOCK_SIZE - pos % BLOCK_SIZE) len) allocs

/-- Number of `copy_to_user` attempts the read loop of `file.c` (lines 29-53)
performs when no copy faults, following the same exit conditions as
`osfs_read_loop` (length exhausted, logical index at the block count). -/
def read_attempts : Nat → Nat → Nat → Nat → Nat
  | 0, _, _, _ => 0
  | fuel + 1, blocks, pos, len =>
    if len = 0 then 0
    else if blocks ≤ pos / BLOCK_SIZE then 0
    else
      1 + read_attempts fuel blocks
        (pos + min (BLOCK_SIZE - pos % BLOCK_SIZE) len)
        (len - min (BLOCK_SIZE - pos % BLOCK_SIZE) len)

lemma chunk_pos (pos len : Nat) (h : len ≠ 0) :
    0 < min (BLOCK_SIZE - pos % BLOCK_SIZE) len := by
  have h1 : pos % BLOCK_SIZE < BLOCK_SIZE := Nat.mod_lt _ (by decide)
  omega

/-- Basic facts about the write loop that need no precondition: the loop never
touches size, timestamps or the dirty flag; `*ppos` advances in lockstep with
`bytes_written`, which never exceeds the request; the allocated block count
grows by exactly the number of allocator answers consumed; an `EFAULT` exit
requires a fault of the copy oracle; an `ENOSPC` exit happens only with zero
progress and changes nothing. -/
lemma write_loop_basic (me : Nat) (buf : Nat → Nat) (f : Nat → Bool) :
    ∀ fuel st pos len bw ci allocs r,
      r = osfs_write_loop me buf f fuel st pos len bw ci allocs →
      r.st.inode.i_size = st.inode.i_size ∧
      r.st.inode.i_mtime = st.inode.i_mtime ∧
      r.st.inode.i_ctime = st.inode.i_ctime ∧
      r.st.dirty = st.dirty ∧
      r.pos + bw = pos + r.bw ∧
      bw ≤ r.bw ∧
      r.bw ≤ bw + len ∧
      st.inode.i_blocks ≤ r.st.inode.i_blocks ∧
      r.st.inode.i_blocks + r.allocs.length = st.inode.i_blocks + allocs.length ∧
      (r.err = Option.some Err.EFAULT → ∃ k, f k = true) ∧
      (r.err = Option.some Err.ENOSPC →
        r.st = st ∧ r.pos = pos ∧ r.bw = bw ∧ r.allocs = allocs ∧ bw = 0) := by
  intro fuel
  induction fuel with
  | zero =>
    intro st pos len bw ci allocs r hr
    subst hr
    exact ⟨rfl, rfl, rfl, rfl, rfl, Nat.le_refl _, Nat.le_add_right _ _, Nat.le_refl _, rfl,
      by intro h; simp [osfs_write_loop] at h,
      by intro h; simp [osfs_write_loop] at h⟩
  | succ n ih =>
    intro st pos len bw ci allocs r hr
    subst hr
    simp only [osfs_write_loop, chunkOf, BLOCK_SIZE]
    by_cases hlen : len = 0
    · rw [if_pos hlen]
      exact ⟨rfl, rfl, rfl, rfl, rfl, Nat.le_refl _, Nat.le_add_right _ _, Nat.le_refl _, rfl,
        by intro h; simp at h, by intro h; simp at h⟩
    · rw [if_neg hlen]
      have hkpos : 0 < min (4096 - pos % 4096) len := chunk_pos pos len hlen
      have hkle : min (4096 - pos % 4096) len ≤ len := Nat.min_le_right _ _
      by_cases hcap : me ≤ pos / 4096
      · rw [if_pos hcap]
        by_cases hbw : 0 < bw
        · rw [if_pos hbw]
          exact ⟨rfl, rfl, rfl, rfl, rfl, Nat.le_refl _, Nat.le_add_right _ _, Nat.le_refl _, rfl,
            by intro h; simp at h, by intro h; simp at h⟩
        · rw [if_neg hbw]
          exact ⟨rfl, rfl, rfl, rfl, rfl, Nat.le_refl _, Nat.le_add_right _ _, Nat.le_refl _, rfl,
            by intro h; simp at h,
            by intro _; exact ⟨rfl, rfl, rfl, rfl, by omega⟩⟩
      · rw [if_neg hcap]
        by_cases hfr : st.inode.i_blocks ≤ pos / 4096
        · rw [if_pos hfr]
          rcases allocs with _ | ⟨ao, rest⟩
          · by_cases hbw : 0 < bw
            · rw [if_pos hbw]
              exact ⟨rfl, rfl, rfl, rfl, rfl, Nat.le_refl _, Nat.le_add_right _ _, Nat.le_refl _,
                rfl, by intro h; simp [allocAttempt] at h, by intro h; simp [allocAttempt] at h⟩
            · rw [if_neg hbw]
              exact ⟨rfl, rfl, rfl, rfl, rfl, Nat.le_refl _, Nat.le_add_right _ _, Nat.le_refl _,
                rfl, by intro h; simp [allocAttempt] at h,
                by intro _; exact ⟨rfl, rfl, rfl, rfl, by omega⟩⟩
          · rcases ao with _ | p
            · by_cases hbw : 0 < bw
              · rw [if_pos hbw]
                exact ⟨rfl, rfl, rfl, rfl, rfl, Nat.le_refl _, Nat.le_add_right _ _, Nat.le_refl _,
                  rfl, by intro h; simp [allocAttempt] at h,
                  by intro h; simp [allocAttempt] at h⟩
              · rw [if_neg hbw]
                exact ⟨rfl, rfl, rfl, rfl, rfl, Nat.le_refl _, Nat.le_add_right _ _, Nat.le_refl _,
                  rfl, by intro h; simp [allocAttempt] at h,
                  by intro _; exact ⟨rfl, rfl, rfl, rfl, by omega⟩⟩
            · simp only [allocAttempt]
              by_cases hfa : f ci = true
              · rw [if_pos hfa]
                exact ⟨rfl, rfl, rfl, rfl, rfl, Nat.le_refl _, Nat.le_add_right _ _,
                  Nat.le_succ _,
                  by show st.inode.i_blocks + 1 + rest.length =
                       st.inode.i_blocks + (rest.length + 1); omega,
                  fun _ => ⟨ci, hfa⟩, by intro h; simp [allocAttempt] at h⟩
              · rw [if_neg hfa]
                obtain ⟨i1, i2, i3, i4, i5, i6, i7, i8, i9, i10, i11⟩ :=
                  ih _ _ _ _ _ _ _ rfl
                refine ⟨i1, i2, i3, i4, by omega, by omega, by omega, ?_, ?_, i10, ?_⟩
                · exact Nat.le_trans (Nat.le_succ _) i8
                · refine i9.trans ?_
                  show st.inode.i_blocks + 1 + rest.length =
                    st.inode.i_blocks + (rest.length + 1)
                  omega
                · intro h
                  obtain ⟨_, _, _, _, hz⟩ := i11 h
                  omega
        · rw [if_neg hfr]
          simp only []
          by_cases hfa : f ci = true
          · rw [if_pos hfa]
            exact ⟨rfl, rfl, rfl, rfl, rfl, Nat.le_refl _, Nat.le_add_right _ _, Nat.le_refl _,
              rfl, fun _ => ⟨ci, hfa⟩, by intro h; simp at h⟩
          · rw [if_neg hfa]
            obtain ⟨i1, i2, i3, i4, i5, i6, i7, i8, i9, i10, i11⟩ :=
              ih _ _ _ _ _ _ _ rfl
            refine ⟨i1, i2, i3, i4, by omega, by omega, by omega, i8, i9, i10, ?_⟩
            intro h
            obtain ⟨_, _, _, _, hz⟩ := i11 h
            omega

/-- Sequential gap-free allocation: when a write starts at or before the
allocated frontier (`pos ≤ i_blocks * BLOCK_SIZE`), the loop only ever
allocates the logical index equal to the current block count, so entries below
the initial count and entries at or beyond the final count are untouched, and
the final position again sits at or before the final frontier. -/
lemma write_loop_seq (me : Nat) (buf : Nat → Nat) (f : Nat → Bool) :
    ∀ fuel st pos len bw ci allocs r,
      r = osfs_write_loop me buf f fuel st pos len bw ci allocs →
      pos ≤ st.inode.i_blocks * BLOCK_SIZE →
      st.inode.i_blocks ≤ r.st.inode.i_blocks ∧
      r.pos ≤ r.st.inode.i_blocks * BLOCK_SIZE ∧
      (∀ j, j < st.inode.i_blocks → r.st.inode.i_blocks_array j = st.inode.i_blocks_array j) ∧
      (∀ j, r.st.inode.i_blocks ≤ j → r.st.inode.i_blocks_array j = st.inode.i_blocks_array j) := by
  intro fuel
  induction fuel with
  | zero =>
    intro st pos len bw ci allocs r hr hpos
    subst hr
    exact ⟨Nat.le_refl _, hpos, fun _ _ => rfl, fun _ _ => rfl⟩
  | succ n ih =>
    intro st pos len bw ci allocs r hr hpos
    subst hr
    simp only [osfs_write_loop, chunkOf, BLOCK_SIZE]
    have hpos4 : pos ≤ st.inode.i_blocks * 4096 := hpos
    by_cases hlen : len = 0
    · rw [if_pos hlen]
      exact ⟨Nat.le_refl _, hpos4, fun _ _ => rfl, fun _ _ => rfl⟩
    · rw [if_neg hlen]
      have hkpos : 0 < min (4096 - pos % 4096) len := chunk_pos pos len hlen
      have hkle : min (4096 - pos % 4096) len ≤ len := Nat.min_le_right _ _
      by_cases hcap : me ≤ pos / 4096
      · rw [if_pos hcap]
        by_cases hbw : 0 < bw
        · rw [if_pos hbw]
          exact ⟨Nat.le_refl _, hpos4, fun _ _ => rfl, fun _ _ => rfl⟩
        · rw [if_neg hbw]
          exact ⟨Nat.le_refl _, hpos4, fun _ _ => rfl, fun _ _ => rfl⟩
      · rw [if_neg hcap]
        by_cases hfr : st.inode.i_blocks ≤ pos / 4096
        · rw [if_pos hfr]
          have hlbi : pos / 4096 = st.inode.i_blocks := by omega
          rcases allocs with _ | ⟨ao, rest⟩
          · by_cases hbw : 0 < bw
            · rw [if_pos hbw]
              exact ⟨Nat.le_refl _, hpos4, fun _ _ => rfl, fun _ _ => rfl⟩
            · rw [if_neg hbw]
              exact ⟨Nat.le_refl _, hpos4, fun _ _ => rfl, fun _ _ => rfl⟩
          · rcases ao with _ | p
            · by_cases hbw : 0 < bw
              · rw [if_pos hbw]
                exact ⟨Nat.le_refl _, hpos4, fun _ _ => rfl, fun _ _ => rfl⟩
              · rw [if_neg hbw]
                exact ⟨Nat.le_refl _, hpos4, fun _ _ => rfl, fun _ _ => rfl⟩
            · simp only [allocAttempt]
              by_cases hfa : f ci = true
              · rw [if_pos hfa]
                refine ⟨Nat.le_succ _, ?_, ?_, ?_⟩
                · show pos ≤ (st.inode.i_blocks + 1) * 4096
                  omega
                · intro j hj
                  show (if j = pos / 4096 then p else st.inode.i_blocks_array j) =
                    st.inode.i_blocks_array j
                  rw [if_neg (show ¬j = pos / 4096 by omega)]
                · intro j hj
                  have hj2 : st.inode.i_blocks + 1 ≤ j := hj
                  show (if j = pos / 4096 then p else st.inode.i_blocks_array j) =
                    st.inode.i_blocks_array j
                  rw [if_neg (show ¬j = pos / 4096 by omega)]
              · rw [if_neg hfa]
                obtain ⟨i0, i1, i2, i3⟩ := ih
                  { st with
                      inode := { st.inode with
                        i_blocks := st.inode.i_blocks + 1,
                        i_blocks_array := setIdx st.inode.i_blocks_array (pos / 4096) p },
                      disk := writeBytes st.disk (p * 4096 + pos % 4096) buf bw
                        (min (4096 - pos % 4096) len) }
                  (pos + min (4096 - pos % 4096) len) (len - min (4096 - pos % 4096) len)
                  (bw + min (4096 - pos % 4096) len) (ci + 1) rest _ rfl
                  (by show pos + min (4096 - pos % 4096) len ≤ (st.inode.i_blocks + 1) * 4096
                      omega)
                refine ⟨Nat.le_trans (Nat.le_succ _) i0, i1, ?_, ?_⟩
                · intro j hj
                  exact (i2 j (show j < st.inode.i_blocks + 1 by omega)).trans
                    (if_neg (show ¬j = pos / 4096 by omega))
                · intro j hj
                  have hj2 : st.inode.i_blocks + 1 ≤ j := Nat.le_trans i0 hj
                  exact (i3 j hj).trans (if_neg (show ¬j = pos / 4096 by omega))
        · rw [if_neg hfr]
          simp only []
          by_cases hfa : f ci = true
          · rw [if_pos hfa]
            exact ⟨Nat.le_refl _, hpos4, fun _ _ => rfl, fun _ _ => rfl⟩
          · rw [if_neg hfa]
            obtain ⟨i0, i1, i2, i3⟩ := ih
              { st with disk :=
                  (writeBytes st.disk
                    (st.inode.i_blocks_array (pos / 4096) * 4096 + pos % 4096) buf bw
                    (min (4096 - pos % 4096) len)) }
              (pos + min (4096 - pos % 4096) len) (len - min (4096 - pos % 4096) len)
              (bw + min (4096 - pos % 4096) len) (ci + 1) allocs _ rfl
              (by show pos + min (4096 - pos % 4096) len ≤ st.inode.i_blocks * 4096
                  omega)
            exact ⟨i0, i1, fun j hj => i2 j hj, fun j hj => i3 j hj⟩

/-- When the fuel covers the request and the loop ends without an error
`return`, either the whole request was transferred, or the loop stopped at the
`MAX_EXTENTS` capacity ceiling, or it stopped because the next allocator
attempt fails. -/
lemma write_loop_complete (me : Nat) (buf : Nat → Nat) (f : Nat → Bool) :
    ∀ fuel st pos len bw ci allocs r,
      r = osfs_write_loop me buf f fuel st pos len bw ci allocs →
      len ≤ fuel →
      (r.err = Option.none →
        bw + len ≤ r.bw ∨ me * BLOCK_SIZE ≤ r.pos ∨ allocFails r.allocs = true) := by
  intro fuel
  induction fuel with
  | zero =>
    intro st pos len bw ci allocs r hr hfuel
    subst hr
    exact fun _ => Or.inl (show bw + len ≤ bw by omega)
  | succ n ih =>
    intro st pos len bw ci allocs r hr hfuel
    subst hr
    simp only [osfs_write_loop, chunkOf, BLOCK_SIZE]
    by_cases hlen : len = 0
    · rw [if_pos hlen]
      exact fun _ => Or.inl (show bw + len ≤ bw by omega)
    · rw [if_neg hlen]
      have hkpos : 0 < min (4096 - pos % 4096) len := chunk_pos pos len hlen
      have hkle : min (4096 - pos % 4096) len ≤ len := Nat.min_le_right _ _
      by_cases hcap : me ≤ pos / 4096
      · rw [if_pos hcap]
        by_cases hbw : 0 < bw
        · rw [if_pos hbw]
          exact fun _ => Or.inr (Or.inl (show me * 4096 ≤ pos by omega))
        · rw [if_neg hbw]
          intro h
          simp at h
      · rw [if_neg hcap]
        by_cases hfr : st.inode.i_blocks ≤ pos / 4096
        · rw [if_pos hfr]
          rcases allocs with _ | ⟨ao, rest⟩
          · by_cases hbw : 0 < bw
            · rw [if_pos hbw]
              exact fun _ => Or.inr (Or.inr rfl)
            · rw [if_neg hbw]
              intro h
              simp [allocAttempt] at h
          · rcases ao with _ | p
            · by_cases hbw : 0 < bw
              · rw [if_pos hbw]
                exact fun _ => Or.inr (Or.inr rfl)
              · rw [if_neg hbw]
                intro h
                simp [allocAttempt] at h
            · simp only [allocAttempt]
              by_cases hfa : f ci = true
              · rw [if_pos hfa]
                intro h
                simp at h
              · rw [if_neg hfa]
                intro h
                rcases ih _ _ _ _ _ _ _ rfl (by omega) h with h1 | h2 | h3
                · exact Or.inl (by omega)
                · exact Or.inr (Or.inl h2)
                · exact Or.inr (Or.inr h3)
        · rw [if_neg hfr]
          simp only []
          by_cases hfa : f ci = true
          · rw [if_pos hfa]
            intro h
            simp at h
          · rw [if_neg hfa]
            intro h
            rcases ih _ _ _ _ _ _ _ rfl (by omega) h with h1 | h2 | h3
            · exact Or.inl (by omega)
            · exact Or.inr (Or.inl h2)
            · exact Or.inr (Or.inr h3)

/-- Basic facts about the read loop: the state is threaded through unchanged;
`*ppos` advances in lockstep with `bytes_read`; the output buffer grows by
exactly the bytes counted; the only early-return error is `EFAULT`, and it
requires a fault of the copy oracle. -/
lemma read_loop_basic (f : Nat → Bool) :
    ∀ fuel st pos len br ci out r,
      r = osfs_read_loop f fuel st pos len br ci out →
      r.st = st ∧
      r.pos + br = pos + r.br ∧
      br ≤ r.br ∧
      r.br ≤ br + len ∧
      r.out.length + br = out.length + r.br ∧
      (∀ e, r.err = Option.some e → e = Err.EFAULT ∧ ∃ k, f k = true) := by
  intro fuel
  induction fuel with
  | zero =>
    intro st pos len br ci out r hr
    subst hr
    exact ⟨rfl, rfl, Nat.le_refl _, Nat.le_add_right _ _, rfl,
      by intro e h; simp [osfs_read_loop] at h⟩
  | succ n ih =>
    intro st pos len br ci out r hr
    subst hr
    simp only [osfs_read_loop, chunkOf, BLOCK_SIZE]
    by_cases hlen : len = 0
    · rw [if_pos hlen]
      exact ⟨rfl, rfl, Nat.le_refl _, Nat.le_add_right _ _, rfl, by intro e h; simp at h⟩
    · rw [if_neg hlen]
      have hkpos : 0 < min (4096 - pos % 4096) len := chunk_pos pos len hlen
      have hkle : min (4096 - pos % 4096) len ≤ len := Nat.min_le_right _ _
      by_cases hfr : st.inode.i_blocks ≤ pos / 4096
      · rw [if_pos hfr]
        exact ⟨rfl, rfl, Nat.le_refl _, Nat.le_add_right _ _, rfl, by intro e h; simp at h⟩
      · rw [if_neg hfr]
        by_cases hfa : f ci = true
        · rw [if_pos hfa]
          exact ⟨rfl, rfl, Nat.le_refl _, Nat.le_add_right _ _, rfl,
            fun e h => ⟨(Option.some.inj h).symm, ci, hfa⟩⟩
        · rw [if_neg hfa]
          obtain ⟨i1, i2, i3, i4, i5, i6⟩ := ih _ _ _ _ _ _ _ rfl
          refine ⟨i1, by omega, by omega, by omega, ?_, i6⟩
          simp only [List.length_append, List.length_map, List.length_range] at i5
          omega

/-- Full characterization of a fault-free read loop whose request stays within
the allocated blocks: every byte is delivered, and byte `j` of the output is
the logical byte at offset `pos + j`. -/
lemma read_loop_ok (f : Nat → Bool) (hf : ∀ k, f k = false) :
    ∀ fuel st pos len br ci out r,
      r = osfs_read_loop f fuel st pos len br ci out →
      pos + len ≤ st.inode.i_blocks * BLOCK_SIZE →
      len ≤ fuel →
      r.err = Option.none ∧ r.pos = pos + len ∧ r.br = br + len ∧
      r.out = out ++ (List.range len).map (fun j => logicalByte st (pos + j)) := by
  intro fuel
  induction fuel with
  | zero =>
    intro st pos len br ci out r hr hfit hfuel
    have hl0 : len = 0 := Nat.le_zero.mp hfuel
    subst hl0
    subst hr
    exact ⟨rfl, (Nat.add_zero pos).symm, (Nat.add_zero br).symm, by simp [osfs_read_loop]⟩
  | succ n ih =>
    intro st pos len br ci out r hr hfit hfuel
    subst hr
    by_cases hlen : len = 0
    · simp only [osfs_read_loop, chunkOf, BLOCK_SIZE]
      rw [if_pos hlen]
      refine ⟨rfl, show pos = pos + len by omega, show br = br + len by omega, ?_⟩
      show out = out ++ (List.range len).map (fun j => logicalByte st (pos + j))
      rw [hlen]
      simp
    · simp only [osfs_read_loop, chunkOf, BLOCK_SIZE]
      rw [if_neg hlen]
      have hfit4 : pos + len ≤ st.inode.i_blocks * 4096 := hfit
      have hkpos : 0 < min (4096 - pos % 4096) len := chunk_pos pos len hlen
      have hkle : min (4096 - pos % 4096) len ≤ len := Nat.min_le_right _ _
      have hfr : ¬st.inode.i_blocks ≤ pos / 4096 := by omega
      rw [if_neg hfr]
      have hnf : ¬f ci = true := by rw [hf ci]; simp
      rw [if_neg hnf]
      obtain ⟨i1, i2, i3, i4⟩ := ih st
        (pos + min (4096 - pos % 4096) len) (len - min (4096 - pos % 4096) len)
        (br + min (4096 - pos % 4096) len) (ci + 1)
        (out ++ (List.range (min (4096 - pos % 4096) len)).map (fun j =>
          st.disk (st.inode.i_blocks_array (pos / 4096) * 4096 + pos % 4096 + j)))
        _ rfl
        (by show pos + min (4096 - pos % 4096) len + (len - min (4096 - pos % 4096) len) ≤
              st.inode.i_blocks * 4096
            omega)
        (by omega)
      refine ⟨i1, by omega, by omega, ?_⟩
      have e1 : (List.range (min (4096 - pos % 4096) len)).map (fun j =>
          st.disk (st.inode.i_blocks_array (pos / 4096) * 4096 + pos % 4096 + j)) =
          (List.range (min (4096 - pos % 4096) len)).map
            (fun j => logicalByte st (pos + j)) := by
        refine List.map_congr_left ?_
        intro j hj
        have hj2 : j < min (4096 - pos % 4096) len := List.mem_range.mp hj
        simp only [logicalByte, BLOCK_SIZE]
        have h1 : (pos + j) / 4096 = pos / 4096 := by omega
        rw [h1]
        exact congrArg st.disk (by omega)
      have e2 : (List.range (len - min (4096 - pos % 4096) len)).map
          (fun j => logicalByte st (pos + min (4096 - pos % 4096) len + j)) =
          ((List.range (len - min (4096 - pos % 4096) len)).map
            (fun x => min (4096 - pos % 4096) len + x)).map
              (fun j => logicalByte st (pos + j)) := by
        rw [List.map_map]
        refine List.map_congr_left ?_
        intro j hj
        simp only [Function.comp]
        rw [Nat.add_assoc]
      rw [i4, List.append_assoc, e1, e2, ← List.map_append, ← List.range_add,
        show min (4096 - pos % 4096) len + (len - min (4096 - pos % 4096) len) = len by omega]

lemma mem_filterMap_id {q : Nat} {l : List (Option Nat)} :
    q ∈ l.filterMap id ↔ Option.some q ∈ l := by
  rw [List.mem_filterMap]
  constructor
  · rintro ⟨a, ha, haq⟩
    cases a with
    | none => exact absurd haq (by simp)
    | some b => exact (Option.some.inj haq) ▸ ha
  · intro h
    exact ⟨Option.some q, h, rfl⟩

/-- Reading back one byte of a chunk that `copy_from_user` just stored. -/
lemma writeBytes_chunk_read (disk : Nat → Nat) (pbn oib : Nat) (buf : Nat → Nat)
    (bw k j : Nat) (hj : j < k) :
    writeBytes disk (pbn * 4096 + oib) buf bw k (pbn * 4096 + (oib + j)) = buf (bw + j) := by
  simp only [writeBytes]
  rw [if_pos ⟨by omega, by omega⟩]
  exact congrArg buf (by omega)

/-- Splitting a logical byte offset inside the current block. -/
lemma logicalByte_eq (st : FsState) (pos j : Nat) (hj : pos % 4096 + j < 4096) :
    logicalByte st (pos + j) =
      st.disk (st.inode.i_blocks_array (pos / 4096) * 4096 + (pos % 4096 + j)) := by
  simp only [logicalByte, BLOCK_SIZE]
  rw [show (pos + j) / 4096 = pos / 4096 by omega,
      show (pos + j) % 4096 = pos % 4096 + j by omega]

/-- The write loop only stores into physical blocks that are mapped at or
after the starting logical block or freshly handed out by the allocator: any
physical block satisfying a predicate `P` that excludes all of those keeps all
its bytes. -/
lemma write_loop_disk_frame (me : Nat) (buf : Nat → Nat) (f : Nat → Bool) (P : Nat → Prop) :
    ∀ fuel st pos len bw ci allocs r,
      r = osfs_write_loop me buf f fuel st pos len bw ci allocs →
      pos ≤ st.inode.i_blocks * BLOCK_SIZE →
      (∀ i, pos / BLOCK_SIZE ≤ i → i < st.inode.i_blocks →
        ¬P (st.inode.i_blocks_array i)) →
      (∀ q, Option.some q ∈ allocs → ¬P q) →
      ∀ a, P (a / BLOCK_SIZE) → r.st.disk a = st.disk a := by
  intro fuel
  induction fuel with
  | zero =>
    intro st pos len bw ci allocs r hr hpos hprot halloc a hPa
    subst hr
    rfl
  | succ n ih =>
    intro st pos len bw ci allocs r hr hpos hprot halloc a hPa
    subst hr
    have hPa4 : P (a / 4096) := hPa
    simp only [osfs_write_loop, chunkOf, BLOCK_SIZE]
    have hpos4 : pos ≤ st.inode.i_blocks * 4096 := hpos
    by_cases hlen : len = 0
    · rw [if_pos hlen]
    · rw [if_neg hlen]
      have hkpos : 0 < min (4096 - pos % 4096) len := chunk_pos pos len hlen
      have hkle : min (4096 - pos % 4096) len ≤ len := Nat.min_le_right _ _
      have hkb : min (4096 - pos % 4096) len ≤ 4096 - pos % 4096 := Nat.min_le_left _ _
      have hoib : pos % 4096 < 4096 := by omega
      by_cases hcap : me ≤ pos / 4096
      · rw [if_pos hcap]
        by_cases hbw : 0 < bw
        · rw [if_pos hbw]
        · rw [if_neg hbw]
      · rw [if_neg hcap]
        by_cases hfr : st.inode.i_blocks ≤ pos / 4096
        · rw [if_pos hfr]
          have hlbi : pos / 4096 = st.inode.i_blocks := by omega
          rcases allocs with _ | ⟨ao, rest⟩
          · by_cases hbw : 0 < bw
            · rw [if_pos hbw]
              rfl
            · rw [if_neg hbw]
              rfl
          · rcases ao with _ | p
            · by_cases hbw : 0 < bw
              · rw [if_pos hbw]
                rfl
              · rw [if_neg hbw]
                rfl
            · simp only [allocAttempt]
              have hPp : ¬P p := halloc p (List.mem_cons_self _ _)
              by_cases hfa : f ci = true
              · rw [if_pos hfa]
              · rw [if_neg hfa]
                have hstep := ih
                  { st with
                      inode := { st.inode with
                        i_blocks := st.inode.i_blocks + 1,
                        i_blocks_array := setIdx st.inode.i_blocks_array (pos / 4096) p },
                      disk := (writeBytes st.disk (p * 4096 + pos % 4096) buf bw
                        (min (4096 - pos % 4096) len)) }
                  (pos + min (4096 - pos % 4096) len) (len - min (4096 - pos % 4096) len)
                  (bw + min (4096 - pos % 4096) len) (ci + 1) rest _ rfl
                  (by show pos + min (4096 - pos % 4096) len ≤ (st.inode.i_blocks + 1) * 4096
                      omega)
                  (by intro i h1 h2
                      have h1a : (pos + min (4096 - pos % 4096) len) / 4096 ≤ i := h1
                      have h2a : i < st.inode.i_blocks + 1 := h2
                      show ¬P (if i = pos / 4096 then p else st.inode.i_blocks_array i)
                      by_cases hib : i = pos / 4096
                      · rw [if_pos hib]
                        exact hPp
                      · rw [if_neg hib]
                        exact hprot i (show pos / 4096 ≤ i by omega)
                          (show i < st.inode.i_blocks by omega))
                  (fun q hq => halloc q (List.mem_cons_of_mem _ hq)) a hPa
                rw [hstep]
                show writeBytes st.disk (p * 4096 + pos % 4096) buf bw
                  (min (4096 - pos % 4096) len) a = st.disk a
                simp only [writeBytes]
                rw [if_neg]
                rintro ⟨ha1, ha2⟩
                have hap : a / 4096 = p := by omega
                exact hPp (hap ▸ hPa4)
        · rw [if_neg hfr]
          simp only []
          by_cases hfa : f ci = true
          · rw [if_pos hfa]
          · rw [if_neg hfa]
            have hstep := ih
              { st with disk :=
                  (writeBytes st.disk
                    (st.inode.i_blocks_array (pos / 4096) * 4096 + pos % 4096) buf bw
                    (min (4096 - pos % 4096) len)) }
              (pos + min (4096 - pos % 4096) len) (len - min (4096 - pos % 4096) len)
              (bw + min (4096 - pos % 4096) len) (ci + 1) allocs _ rfl
              (by show pos + min (4096 - pos % 4096) len ≤ st.inode.i_blocks * 4096
                  omega)
              (by intro i h1 h2
                  have h1a : (pos + min (4096 - pos % 4096) len) / 4096 ≤ i := h1
                  exact hprot i (show pos / 4096 ≤ i by omega)
                    (show i < st.inode.i_blocks from h2))
              halloc a hPa
            rw [hstep]
            show writeBytes st.disk
              (st.inode.i_blocks_array (pos / 4096) * 4096 + pos % 4096) buf bw
              (min (4096 - pos % 4096) len) a = st.disk a
            simp only [writeBytes]
            rw [if_neg]
            rintro ⟨ha1, ha2⟩
            have hap : a / 4096 = st.inode.i_blocks_array (pos / 4096) := by omega
            exact hprot (pos / 4096) (Nat.le_refl _) (by omega) (hap ▸ hPa4)

/-- Allocating a fresh physical block at the frontier keeps the block map
injective. -/
lemma mapInjective_step (st : FsState) (p lbi : Nat) (rest : List (Option Nat))
    (hlbi : lbi = st.inode.i_blocks)
    (hinj : mapInjective st) (hfresh : allocsFresh st (Option.some p :: rest)) :
    mapInjective { st with inode := { st.inode with
      i_blocks := st.inode.i_blocks + 1,
      i_blocks_array := setIdx st.inode.i_blocks_array lbi p } } := by
  intro i j hi hj hne
  have hi2 : i < st.inode.i_blocks + 1 := hi
  have hj2 : j < st.inode.i_blocks + 1 := hj
  have hp : ∀ i2, i2 < st.inode.i_blocks → st.inode.i_blocks_array i2 ≠ p :=
    fun i2 hi2 => hfresh.2 p (List.mem_cons_self _ _) i2 hi2
  show (if i = lbi then p else st.inode.i_blocks_array i) ≠
    (if j = lbi then p else st.inode.i_blocks_array j)
  by_cases hib : i = lbi
  · rw [if_pos hib, if_neg (show ¬j = lbi by omega)]
    exact fun h => hp j (by omega) h.symm
  · rw [if_neg hib]
    by_cases hjb : j = lbi
    · rw [if_pos hjb]
      exact hp i (by omega)
    · rw [if_neg hjb]
      exact hinj i j (by omega) (by omega) hne

/-- Consuming a fresh allocator answer at the frontier keeps the remaining
answers fresh for the extended block map. -/
lemma allocsFresh_step (st : FsState) (p lbi : Nat) (rest : List (Option Nat))
    (hlbi : lbi = st.inode.i_blocks)
    (hfresh : allocsFresh st (Option.some p :: rest)) :
    allocsFresh { st with inode := { st.inode with
      i_blocks := st.inode.i_blocks + 1,
      i_blocks_array := setIdx st.inode.i_blocks_array lbi p } } rest := by
  obtain ⟨hnd, hfr⟩ := hfresh
  rw [show (Option.some p :: rest).filterMap id = p :: rest.filterMap id from by simp] at hnd
  obtain ⟨hpnot, hnd2⟩ := List.nodup_cons.mp hnd
  refine ⟨hnd2, ?_⟩
  intro q hq i hi
  have hi2 : i < st.inode.i_blocks + 1 := hi
  show (if i = lbi then p else st.inode.i_blocks_array i) ≠ q
  by_cases hib : i = lbi
  · rw [if_pos hib]
    intro hpq
    exact hpnot (hpq ▸ mem_filterMap_id.mpr hq)
  · rw [if_neg hib]
    exact hfr q (List.mem_cons_of_mem _ hq) i (by omega)

/-- Content of a fault-free write loop: with an injective block map, fresh
allocator answers and the sequential precondition, every byte the loop counts
as written is read back through the final block map as the matching
user-buffer byte. -/
lemma write_loop_content (me : Nat) (buf : Nat → Nat) (f : Nat → Bool) :
    ∀ fuel st pos len bw ci allocs r,
      r = osfs_write_loop me buf f fuel st pos len bw ci allocs →
      pos ≤ st.inode.i_blocks * BLOCK_SIZE →
      mapInjective st →
      allocsFresh st allocs →
      ∀ j, j < r.bw - bw → logicalByte r.st (pos + j) = buf (bw + j) := by
  intro fuel
  induction fuel with
  | zero =>
    intro st pos len bw ci allocs r hr hpos hinj hfresh j hj
    subst hr
    exact absurd hj (show ¬j < bw - bw by omega)
  | succ n ih =>
    intro st pos len bw ci allocs r hr hpos hinj hfresh j hj
    subst hr
    simp only [osfs_write_loop, chunkOf, BLOCK_SIZE] at hj ⊢
    have hpos4 : pos ≤ st.inode.i_blocks * 4096 := hpos
    by_cases hlen : len = 0
    · rw [if_pos hlen] at hj
      exact absurd hj (show ¬j < bw - bw by omega)
    · rw [if_neg hlen] at hj ⊢
      have hkpos : 0 < min (4096 - pos % 4096) len := chunk_pos pos len hlen
      have hkle : min (4096 - pos % 4096) len ≤ len := Nat.min_le_right _ _
      have hkb : min (4096 - pos % 4096) len ≤ 4096 - pos % 4096 := Nat.min_le_left _ _
      have hoib : pos % 4096 < 4096 := by omega
      by_cases hcap : me ≤ pos / 4096
      · rw [if_pos hcap] at hj
        by_cases hbw : 0 < bw
        · rw [if_pos hbw] at hj
          exact absurd hj (show ¬j < bw - bw by omega)
        · rw [if_neg hbw] at hj
          exact absurd hj (show ¬j < bw - bw by omega)
      · rw [if_neg hcap] at hj ⊢
        by_cases hfr : st.inode.i_blocks ≤ pos / 4096
        · rw [if_pos hfr] at hj ⊢
          have hlbi : pos / 4096 = st.inode.i_blocks := by omega
          rcases allocs with _ | ⟨ao, rest⟩
          · by_cases hbw : 0 < bw
            · rw [if_pos hbw] at hj
              exact absurd hj (show ¬j < bw - bw by omega)
            · rw [if_neg hbw] at hj
              exact absurd hj (show ¬j < bw - bw by omega)
          · rcases ao with _ | p
            · by_cases hbw : 0 < bw
              · rw [if_pos hbw] at hj
                exact absurd hj (show ¬j < bw - bw by omega)
              · rw [if_neg hbw] at hj
                exact absurd hj (show ¬j < bw - bw by omega)
            · simp only [allocAttempt] at hj ⊢
              by_cases hfa : f ci = true
              case pos =>
                rw [if_pos hfa] at hj
                exact absurd hj (show ¬j < bw - bw by omega)
              rw [if_neg hfa] at hj ⊢
              have hinj2 := mapInjective_step st p (pos / 4096) rest hlbi hinj hfresh
              have hfresh2 := allocsFresh_step st p (pos / 4096) rest hlbi hfresh
              by_cases hrest : len - min (4096 - pos % 4096) len = 0
              · rw [hrest] at hj ⊢
                cases n
                all_goals
                  have hjk : j < min (4096 - pos % 4096) len := by
                    have hj2 : j < bw + min (4096 - pos % 4096) len - bw := hj
                    omega
                all_goals
                  rw [logicalByte_eq _ pos j (by omega)]
                  show writeBytes st.disk (p * 4096 + pos % 4096) buf bw
                    (min (4096 - pos % 4096) len)
                    (setIdx st.inode.i_blocks_array (pos / 4096) p (pos / 4096) * 4096 +
                      (pos % 4096 + j)) = buf (bw + j)
                  rw [show setIdx st.inode.i_blocks_array (pos / 4096) p (pos / 4096) = p from
                    by simp [setIdx]]
                  exact writeBytes_chunk_read st.disk p (pos % 4096) buf bw
                    (min (4096 - pos % 4096) len) j hjk
              · have hB : min (4096 - pos % 4096) len = 4096 - pos % 4096 := by omega
                by_cases hjk : j < min (4096 - pos % 4096) len
                · rw [logicalByte_eq _ pos j (by omega)]
                  obtain ⟨s0, s1, s2, s3⟩ := write_loop_seq me buf f n
                    { st with
                        inode := { st.inode with
                          i_blocks := st.inode.i_blocks + 1,
                          i_blocks_array := setIdx st.inode.i_blocks_array (pos / 4096) p },
                        disk := (writeBytes st.disk (p * 4096 + pos % 4096) buf bw
                          (min (4096 - pos % 4096) len)) }
                    (pos + min (4096 - pos % 4096) len) (len - min (4096 - pos % 4096) len)
                    (bw + min (4096 - pos % 4096) len) (ci + 1) rest _ rfl
                    (by show pos + min (4096 - pos % 4096) len ≤
                          (st.inode.i_blocks + 1) * 4096
                        omega)
                  rw [s2 (pos / 4096) (show pos / 4096 < st.inode.i_blocks + 1 by omega)]
                  simp only []
                  rw [show setIdx st.inode.i_blocks_array (pos / 4096) p (pos / 4096) = p from
                    by simp [setIdx]]
                  rw [write_loop_disk_frame me buf f (fun q => q = p) n
                    { st with
                        inode := { st.inode with
                          i_blocks := st.inode.i_blocks + 1,
                          i_blocks_array := setIdx st.inode.i_blocks_array (pos / 4096) p },
                        disk := (writeBytes st.disk (p * 4096 + pos % 4096) buf bw
                          (min (4096 - pos % 4096) len)) }
                    (pos + min (4096 - pos % 4096) len) (len - min (4096 - pos % 4096) len)
                    (bw + min (4096 - pos % 4096) len) (ci + 1) rest _ rfl
                    (by show pos + min (4096 - pos % 4096) len ≤
                          (st.inode.i_blocks + 1) * 4096
                        omega)
                    (by intro i h1 h2
                        have h1a : (pos + min (4096 - pos % 4096) len) / 4096 ≤ i := h1
                        have h2a : i < st.inode.i_blocks + 1 := h2
                        intro _
                        omega)
                    (by intro q hq hqp
                        obtain ⟨hnd, _⟩ := hfresh
                        rw [show (Option.some p :: rest).filterMap id =
                          p :: rest.filterMap id from by simp] at hnd
                        exact (List.nodup_cons.mp hnd).1 (hqp ▸ mem_filterMap_id.mpr hq))
                    (p * 4096 + (pos % 4096 + j))
                    (show (p * 4096 + (pos % 4096 + j)) / 4096 = p by omega)]
                  show writeBytes st.disk (p * 4096 + pos % 4096) buf bw
                    (min (4096 - pos % 4096) len) (p * 4096 + (pos % 4096 + j)) = buf (bw + j)
                  exact writeBytes_chunk_read st.disk p (pos % 4096) buf bw
                    (min (4096 - pos % 4096) len) j hjk
                · have hjc : j < (osfs_write_loop me buf f n
                      { st with
                          inode := { st.inode with
                            i_blocks := st.inode.i_blocks + 1,
                            i_blocks_array := setIdx st.inode.i_blocks_array (pos / 4096) p },
                          disk := (writeBytes st.disk (p * 4096 + pos % 4096) buf bw
                            (min (4096 - pos % 4096) len)) }
                      (pos + min (4096 - pos % 4096) len) (len - min (4096 - pos % 4096) len)
                      (bw + min (4096 - pos % 4096) len) (ci + 1) rest).bw - bw := hj
                  have := ih
                    { st with
                        inode := { st.inode with
                          i_blocks := st.inode.i_blocks + 1,
                          i_blocks_array := setIdx st.inode.i_blocks_array (pos / 4096) p },
                        disk := (writeBytes st.disk (p * 4096 + pos % 4096) buf bw
                          (min (4096 - pos % 4096) len)) }
                    (pos + min (4096 - pos % 4096) len) (len - min (4096 - pos % 4096) len)
                    (bw + min (4096 - pos % 4096) len) (ci + 1) rest _ rfl
                    (by show pos + min (4096 - pos % 4096) len ≤
                          (st.inode.i_blocks + 1) * 4096
                        omega)
                    hinj2 hfresh2 (j - min (4096 - pos % 4096) len) (by omega)
                  rw [show pos + min (4096 - pos % 4096) len +
                        (j - min (4096 - pos % 4096) len) = pos + j by omega,
                      show bw + min (4096 - pos % 4096) len +
                        (j - min (4096 - pos % 4096) len) = bw + j by omega] at this
                  exact this
        · rw [if_neg hfr] at hj ⊢
          simp only [] at hj ⊢
          by_cases hfa : f ci = true
          case pos =>
            rw [if_pos hfa] at hj
            exact absurd hj (show ¬j < bw - bw by omega)
          rw [if_neg hfa] at hj ⊢
          by_cases hrest : len - min (4096 - pos % 4096) len = 0
          · rw [hrest] at hj ⊢
            cases n
            all_goals
              have hjk : j < min (4096 - pos % 4096) len := by
                have hj2 : j < bw + min (4096 - pos % 4096) len - bw := hj
                omega
            all_goals
              rw [logicalByte_eq _ pos j (by omega)]
              show writeBytes st.disk
                (st.inode.i_blocks_array (pos / 4096) * 4096 + pos % 4096) buf bw
                (min (4096 - pos % 4096) len)
                (st.inode.i_blocks_array (pos / 4096) * 4096 + (pos % 4096 + j)) =
                buf (bw + j)
              exact writeBytes_chunk_read st.disk (st.inode.i_blocks_array (pos / 4096))
                (pos % 4096) buf bw (min (4096 - pos % 4096) len) j hjk
          · have hB : min (4096 - pos % 4096) len = 4096 - pos % 4096 := by omega
            by_cases hjk : j < min (4096 - pos % 4096) len
            · rw [logicalByte_eq _ pos j (by omega)]
              obtain ⟨s0, s1, s2, s3⟩ := write_loop_seq me buf f n
                { st with disk :=
                    (writeBytes st.disk
                      (st.inode.i_blocks_array (pos / 4096) * 4096 + pos % 4096) buf bw
                      (min (4096 - pos % 4096) len)) }
                (pos + min (4096 - pos % 4096) len) (len - min (4096 - pos % 4096) len)
                (bw + min (4096 - pos % 4096) len) (ci + 1) allocs _ rfl
                (by show pos + min (4096 - pos % 4096) len ≤ st.inode.i_blocks * 4096
                    omega)
              rw [s2 (pos / 4096) (show pos / 4096 < st.inode.i_blocks by omega)]
              simp only []
              rw [write_loop_disk_frame me buf f
                (fun q => q = st.inode.i_blocks_array (pos / 4096)) n
                { st with disk :=
                    (writeBytes st.disk
                      (st.inode.i_blocks_array (pos / 4096) * 4096 + pos % 4096) buf bw
                      (min (4096 - pos % 4096) len)) }
                (pos + min (4096 - pos % 4096) len) (len - min (4096 - pos % 4096) len)
                (bw + min (4096 - pos % 4096) len) (ci + 1) allocs _ rfl
                (by show pos + min (4096 - pos % 4096) len ≤ st.inode.i_blocks * 4096
                    omega)
                (by intro i h1 h2
                    have h1a : (pos + min (4096 - pos % 4096) len) / 4096 ≤ i := h1
                    have h2a : i < st.inode.i_blocks := h2
                    intro hia
                    exact hinj i (pos / 4096) (by omega) (by omega) (by omega) hia)
                (by intro q hq hqA
                    exact hfresh.2 q hq (pos / 4096) (by omega) hqA.symm)
                (st.inode.i_blocks_array (pos / 4096) * 4096 + (pos % 4096 + j))
                (show (st.inode.i_blocks_array (pos / 4096) * 4096 + (pos % 4096 + j)) /
                  4096 = st.inode.i_blocks_array (pos / 4096) by omega)]
              show writeBytes st.disk
                (st.inode.i_blocks_array (pos / 4096) * 4096 + pos % 4096) buf bw
                (min (4096 - pos % 4096) len)
                (st.inode.i_blocks_array (pos / 4096) * 4096 + (pos % 4096 + j)) =
                buf (bw + j)
              exact writeBytes_chunk_read st.disk (st.inode.i_blocks_array (pos / 4096))
                (pos % 4096) buf bw (min (4096 - pos % 4096) len) j hjk
            · have := ih
                { st with disk :=
                    (writeBytes st.disk
                      (st.inode.i_blocks_array (pos / 4096) * 4096 + pos % 4096) buf bw
                      (min (4096 - pos % 4096) len)) }
                (pos + min (4096 - pos % 4096) len) (len - min (4096 - pos % 4096) len)
                (bw + min (4096 - pos % 4096) len) (ci + 1) allocs _ rfl
                (by show pos + min (4096 - pos % 4096) len ≤ st.inode.i_blocks * 4096
                    omega)
                hinj hfresh (j - min (4096 - pos % 4096) len) (by omega)
              rw [show pos + min (4096 - pos % 4096) len +
                    (j - min (4096 - pos % 4096) len) = pos + j by omega,
                  show bw + min (4096 - pos % 4096) len +
                    (j - min (4096 - pos % 4096) len) = bw + j by omega] at this
              exact this

lemma writeFinish_err_ret (now : Nat) (r : WLoop) (e : Err) (h : r.err = Option.some e) :
    (writeFinish now r).ret = Except.error e := by
  simp only [writeFinish, h]

lemma writeFinish_err_st (now : Nat) (r : WLoop) (e : Err) (h : r.err = Option.some e) :
    (writeFinish now r).st = r.st := by
  simp only [writeFinish, h]

lemma writeFinish_err_pos (now : Nat) (r : WLoop) (e : Err) (h : r.err = Option.some e) :
    (writeFinish now r).pos = r.pos := by
  simp only [writeFinish, h]

lemma writeFinish_err_allocs (now : Nat) (r : WLoop) (e : Err) (h : r.err = Option.some e) :
    (writeFinish now r).allocs = r.allocs := by
  simp only [writeFinish, h]

lemma writeFinish_ok_ret (now : Nat) (r : WLoop) (h : r.err = Option.none) :
    (writeFinish now r).ret = Except.ok r.bw := by
  simp only [writeFinish, h]

lemma writeFinish_ok_pos (now : Nat) (r : WLoop) (h : r.err = Option.none) :
    (writeFinish now r).pos = r.pos := by
  simp only [writeFinish, h]

lemma writeFinish_ok_allocs (now : Nat) (r : WLoop) (h : r.err = Option.none) :
    (writeFinish now r).allocs = r.allocs := by
  simp only [writeFinish, h]

lemma writeFinish_ok_size (now : Nat) (r : WLoop) (h : r.err = Option.none) :
    (writeFinish now r).st.inode.i_size = max r.st.inode.i_size r.pos := by
  by_cases hsz : r.st.inode.i_size < r.pos
  · simp only [writeFinish, h, if_pos hsz]
    omega
  · simp only [writeFinish, h, if_neg hsz]
    omega

lemma writeFinish_ok_blocks (now : Nat) (r : WLoop) (h : r.err = Option.none) :
    (writeFinish now r).st.inode.i_blocks = r.st.inode.i_blocks := by
  by_cases hsz : r.st.inode.i_size < r.pos
  · simp only [writeFinish, h, if_pos hsz]
  · simp only [writeFinish, h, if_neg hsz]

lemma writeFinish_ok_array (now : Nat) (r : WLoop) (h : r.err = Option.none) :
    (writeFinish now r).st.inode.i_blocks_array = r.st.inode.i_blocks_array := by
  by_cases hsz : r.st.inode.i_size < r.pos
  · simp only [writeFinish, h, if_pos hsz]
  · simp only [writeFinish, h, if_neg hsz]

lemma writeFinish_ok_disk (now : Nat) (r : WLoop) (h : r.err = Option.none) :
    (writeFinish now r).st.disk = r.st.disk := by
  simp only [writeFinish, h]

lemma writeFinish_ok_mtime (now : Nat) (r : WLoop) (h : r.err = Option.none) :
    (writeFinish now r).st.inode.i_mtime = now := by
  simp only [writeFinish, h]

lemma writeFinish_ok_ctime (now : Nat) (r : WLoop) (h : r.err = Option.none) :
    (writeFinish now r).st.inode.i_ctime = now := by
  simp only [writeFinish, h]

lemma writeFinish_ok_dirty (now : Nat) (r : WLoop) (h : r.err = Option.none) :
    (writeFinish now r).st.dirty = true := by
  simp only [writeFinish, h]

/-- Every `osfs_write` call either surfaces the loop error or returns the loop
byte count. -/
lemma osfs_write_ret_cases (me now pos len : Nat) (st : FsState) (buf : Nat → Nat)
    (allocs : List (Option Nat)) (faults : Nat → Bool) :
    (∃ e, (osfs_write_loop me buf faults len st pos len 0 0 allocs).err = Option.some e ∧
      (osfs_write me now st buf allocs faults pos len).ret = Except.error e) ∨
    ((osfs_write_loop me buf faults len st pos len 0 0 allocs).err = Option.none ∧
      (osfs_write me now st buf allocs faults pos len).ret =
        Except.ok (osfs_write_loop me buf faults len st pos len 0 0 allocs).bw) := by
  cases hLE : (osfs_write_loop me buf faults len st pos len 0 0 allocs).err with
  | none => exact Or.inr ⟨rfl, writeFinish_ok_ret now _ hLE⟩
  | some e => exact Or.inl ⟨e, rfl, writeFinish_err_ret now _ e hLE⟩

/-- Characterization of a fault-free in-bounds read call. -/
lemma osfs_read_ok_char (st : FsState) (faults : Nat → Bool) (pos len : Nat)
    (hf : ∀ k, faults k = false)
    (hsz : st.inode.i_size ≤ st.inode.i_blocks * BLOCK_SIZE)
    (hpos : pos < st.inode.i_size) :
    (osfs_read st faults pos len).ret =
      Except.ok (min len (st.inode.i_size - pos)) ∧
    (osfs_read st faults pos len).out =
      (List.range (min len (st.inode.i_size - pos))).map
        (fun j => logicalByte st (pos + j)) ∧
    (osfs_read st faults pos len).pos = pos + min len (st.inode.i_size - pos) ∧
    (osfs_read st faults pos len).st = st := by
  simp only [osfs_read]
  rw [if_neg (show ¬st.inode.i_size ≤ pos by omega)]
  rw [show (if st.inode.i_size < pos + len then st.inode.i_size - pos else len) =
    min len (st.inode.i_size - pos) from by split <;> omega]
  obtain ⟨o1, o2, o3, o4⟩ := read_loop_ok faults hf (min len (st.inode.i_size - pos)) st pos
    (min len (st.inode.i_size - pos)) 0 0 [] _ rfl (by omega) (Nat.le_refl _)
  obtain ⟨i1, -, -, -, -, -⟩ := read_loop_basic faults (min len (st.inode.i_size - pos)) st pos
    (min len (st.inode.i_size - pos)) 0 0 [] _ rfl
  rw [o1]
  refine ⟨?_, ?_, ?_, ?_⟩
  · show Except.ok (osfs_read_loop faults (min len (st.inode.i_size - pos)) st pos
      (min len (st.inode.i_size - pos)) 0 0 []).br =
      Except.ok (min len (st.inode.i_size - pos))
    rw [o3, Nat.zero_add]
  · show (osfs_read_loop faults (min len (st.inode.i_size - pos)) st pos
      (min len (st.inode.i_size - pos)) 0 0 []).out = _
    rw [o4, List.nil_append]
  · show (osfs_read_loop faults (min len (st.inode.i_size - pos)) st pos
      (min len (st.inode.i_size - pos)) 0 0 []).pos = _
    exact o2
  · show (osfs_read_loop faults (min len (st.inode.i_size - pos)) st pos
      (min len (st.inode.i_size - pos)) 0 0 []).st = st
    exact i1

/-- A read never delivers bytes beyond the recorded size. -/
lemma osfs_read_le_size (st : FsState) (faults : Nat → Bool) (pos len : Nat) :
    (osfs_read st faults pos len).out.length ≤ st.inode.i_size - pos := by
  simp only [osfs_read]
  by_cases h : st.inode.i_size ≤ pos
  · rw [if_pos h]
    show ([] : List Nat).length ≤ _
    simp
  · rw [if_neg h]
    obtain ⟨-, -, -, i4, i5, -⟩ := read_loop_basic faults
      (if st.inode.i_size < pos + len then st.inode.i_size - pos else len) st pos
      (if st.inode.i_size < pos + len then st.inode.i_size - pos else len) 0 0 [] _ rfl
    have hc : (if st.inode.i_size < pos + len then st.inode.i_size - pos else len) ≤
        st.inode.i_size - pos := by
      split <;> omega
    simp only [List.length_nil] at i5
    split
    · show (osfs_read_loop faults
        (if st.inode.i_size < pos + len then st.inode.i_size - pos else len) st pos
        (if st.inode.i_size < pos + len then st.inode.i_size - pos else len)
        0 0 []).out.length ≤ st.inode.i_size - pos
      omega
    · show (osfs_read_loop faults
        (if st.inode.i_size < pos + len then st.inode.i_size - pos else len) st pos
        (if st.inode.i_size < pos + len then st.inode.i_size - pos else len)
        0 0 []).out.length ≤ st.inode.i_size - pos
      omega

/-- Claim C6: for every read call with `pos ≥ size`, the call returns 0 bytes
transferred and no error, and the file state and position are unchanged. -/
theorem osfs_read_eof_returns_zero (st : FsState) (faults : Nat → Bool) (pos len : Nat)
    (h : st.inode.i_size ≤ pos) :
    (osfs_read st faults pos len).ret = Except.ok 0 ∧
    (osfs_read st faults pos len).st = st ∧
    (osfs_read st faults pos len).pos = pos ∧
    (osfs_read st faults pos len).out = [] := by
  simp only [osfs_read]
  rw [if_pos h]
  exact ⟨rfl, rfl, rfl, rfl⟩

theorem osfs_read_eof_returns_zero_witness :
    (osfs_read twoBlockState noFaults 9000 5).ret = Except.ok 0 ∧
    (osfs_read twoBlockState noFaults 9000 5).st = twoBlockState ∧
    (osfs_read twoBlockState noFaults 9000 5).pos = 9000 ∧
    (osfs_read twoBlockState noFaults 9000 5).out = [] :=
  osfs_read_eof_returns_zero twoBlockState noFaults 9000 5 (by decide)

/-- Claim C9: a read call never modifies any file metadata: size, block count,
block map, timestamps, the dirty flag and the disk bytes are all unchanged, on
every path including early loop stops and faults. -/
theorem osfs_read_no_metadata_change (st : FsState) (faults : Nat → Bool) (pos len : Nat) :
    (osfs_read st faults pos len).st = st ∧
    (osfs_read st faults pos len).st.inode.i_size = st.inode.i_size ∧
    (osfs_read st faults pos len).st.inode.i_blocks = st.inode.i_blocks ∧
    (osfs_read st faults pos len).st.inode.i_blocks_array = st.inode.i_blocks_array ∧
    (osfs_read st faults pos len).st.inode.i_mtime = st.inode.i_mtime ∧
    (osfs_read st faults pos len).st.inode.i_ctime = st.inode.i_ctime ∧
    (osfs_read st faults pos len).st.dirty = st.dirty ∧
    (osfs_read st faults pos len).st.disk = st.disk := by
  have hst : (osfs_read st faults pos len).st = st := by
    simp only [osfs_read]
    by_cases h : st.inode.i_size ≤ pos
    · rw [if_pos h]
    · rw [if_neg h]
      obtain ⟨i1, -, -, -, -, -⟩ := read_loop_basic faults
        (if st.inode.i_size < pos + len then st.inode.i_size - pos else len) st pos
        (if st.inode.i_size < pos + len then st.inode.i_size - pos else len) 0 0 [] _ rfl
      split
      · exact i1
      · exact i1
  exact ⟨hst, by rw [hst], by rw [hst], by rw [hst], by rw [hst], by rw [hst],
    by rw [hst], by rw [hst]⟩

/-- Claim C7: on every loop iteration the chunk triple is
`(pos / BLOCK_SIZE, pos % BLOCK_SIZE, min (BLOCK_SIZE - pos % BLOCK_SIZE) len)`;
the offset is below `BLOCK_SIZE`, the chunk is nonempty (for `len > 0`), at
most `BLOCK_SIZE`, fits inside the block, and a write starting at offset
`BLOCK_SIZE - 1` with `len = 2` spans two blocks. -/
theorem chunk_arithmetic_bounds (pos len : Nat) (h : 0 < len) :
    (chunkOf pos len).1 = pos / BLOCK_SIZE ∧
    (chunkOf pos len).2.1 = pos % BLOCK_SIZE ∧
    (chunkOf pos len).2.2 = min (BLOCK_SIZE - pos % BLOCK_SIZE) len ∧
    (chunkOf pos len).2.1 < BLOCK_SIZE ∧
    0 < (chunkOf pos len).2.2 ∧
    (chunkOf pos len).2.2 ≤ BLOCK_SIZE ∧
    (chunkOf pos len).2.1 + (chunkOf pos len).2.2 ≤ BLOCK_SIZE ∧
    (pos % BLOCK_SIZE = BLOCK_SIZE - 1 →
      (chunkOf pos 2).2.2 = 1 ∧ (pos + 1) / BLOCK_SIZE = pos / BLOCK_SIZE + 1) := by
  have h1 : pos % 4096 < 4096 := Nat.mod_lt _ (by norm_num)
  refine ⟨rfl, rfl, rfl,
    show pos % 4096 < 4096 from h1,
    show 0 < min (4096 - pos % 4096) len by omega,
    show min (4096 - pos % 4096) len ≤ 4096 by omega,
    show pos % 4096 + min (4096 - pos % 4096) len ≤ 4096 by omega,
    fun hb => ?_⟩
  have hb4 : pos % 4096 = 4095 := hb
  exact ⟨show min (4096 - pos % 4096) 2 = 1 by omega,
    show (pos + 1) / 4096 = pos / 4096 + 1 by omega⟩

theorem chunk_arithmetic_bounds_witness :
    (chunkOf 4095 2).2.2 = 1 ∧ (4095 + 1) / BLOCK_SIZE = 4095 / BLOCK_SIZE + 1 :=
  (chunk_arithmetic_bounds 4095 2 (by decide)).2.2.2.2.2.2.2 (by decide)

/-- Claim C2: write partial-success policy.  With no I/O faults, an error
return is always `ENOSPC` with zero bytes transferred and the state, cursor
and allocator untouched; a successful return of `bw` bytes advanced the cursor
by exactly `bw ≤ len`, and a short count means the call stopped at the
`MAX_EXTENTS` ceiling or at a failing allocator. -/
theorem osfs_write_partial_success_policy (me now pos len : Nat) (st : FsState)
    (buf : Nat → Nat) (allocs : List (Option Nat)) (faults : Nat → Bool)
    (hf : ∀ k, faults k = false) :
    (∀ e, (osfs_write me now st buf allocs faults pos len).ret = Except.error e →
      e = Err.ENOSPC ∧
      (osfs_write me now st buf allocs faults pos len).st = st ∧
      (osfs_write me now st buf allocs faults pos len).pos = pos ∧
      (osfs_write me now st buf allocs faults pos len).allocs = allocs) ∧
    (∀ bw, (osfs_write me now st buf allocs faults pos len).ret = Except.ok bw →
      (osfs_write me now st buf allocs faults pos len).pos = pos + bw ∧ bw ≤ len ∧
      (bw < len →
        me * BLOCK_SIZE ≤ (osfs_write me now st buf allocs faults pos len).pos ∨
        allocFails (osfs_write me now st buf allocs faults pos len).allocs = true)) := by
  obtain ⟨b1, b2, b3, b4, b5, b6, b7, b8, b9, b10, b11⟩ :=
    write_loop_basic me buf faults len st pos len 0 0 allocs _ rfl
  have bc := write_loop_complete me buf faults len st pos len 0 0 allocs _ rfl (Nat.le_refl _)
  rcases osfs_write_ret_cases me now pos len st buf allocs faults with
    ⟨e2, hLE, hret⟩ | ⟨hLE, hret⟩
  · constructor
    · intro e he
      rw [hret] at he
      have hee : e2 = e := Except.error.inj he
      cases e2 with
      | EFAULT =>
        obtain ⟨k, hk⟩ := b10 hLE
        rw [hf k] at hk
        exact absurd hk (by simp)
      | ENOSPC =>
        obtain ⟨hst, hpos2, hbw2, hallocs2, -⟩ := b11 hLE
        refine ⟨hee.symm, ?_, ?_, ?_⟩
        · exact (writeFinish_err_st now _ _ hLE).trans hst
        · exact (writeFinish_err_pos now _ _ hLE).trans hpos2
        · exact (writeFinish_err_allocs now _ _ hLE).trans hallocs2
    · intro bw hbw
      rw [hret] at hbw
      exact absurd hbw (by simp)
  · constructor
    · intro e he
      rw [hret] at he
      exact absurd he (by simp)
    · intro bw hbw
      have hbweq : (osfs_write_loop me buf faults len st pos len 0 0 allocs).bw = bw := by
        rw [hret] at hbw
        exact Except.ok.inj hbw
      refine ⟨(writeFinish_ok_pos now _ hLE).trans (by omega), by omega, ?_⟩
      intro hlt
      rcases bc hLE with h1 | h2 | h3
      · exact absurd h1 (by omega)
      · exact Or.inl ((writeFinish_ok_pos now _ hLE).symm ▸ h2)
      · exact Or.inr ((writeFinish_ok_allocs now _ hLE).symm ▸ h3)

theorem osfs_write_partial_success_policy_witness :
    (osfs_write 4 0 emptyState bufId [Option.some 1] noFaults 0 5).pos = 0 + 5 :=
  ((osfs_write_partial_success_policy 4 0 0 5 emptyState bufId [Option.some 1]
    noFaults (fun _ => rfl)).2 5 rfl).1

/-- Claim C5: size growth rule.  A successful write of `bw` bytes at `pos`
leaves `size = max old_size (pos + bw)`: appending `N` bytes at `pos = size`
grows the size by exactly `N`, and a write entirely within the existing bounds
leaves the size unchanged. -/
theorem osfs_write_size_growth (me now pos len : Nat) (st : FsState) (buf : Nat → Nat)
    (allocs : List (Option Nat)) (faults : Nat → Bool) :
    (∀ bw, (osfs_write me now st buf allocs faults pos len).ret = Except.ok bw →
      (osfs_write me now st buf allocs faults pos len).pos = pos + bw ∧ bw ≤ len ∧
      (osfs_write me now st buf allocs faults pos len).st.inode.i_size =
        max st.inode.i_size (pos + bw)) ∧
    (pos = st.inode.i_size →
      (osfs_write me now st buf allocs faults pos len).ret = Except.ok len →
      (osfs_write me now st buf allocs faults pos len).st.inode.i_size =
        st.inode.i_size + len) ∧
    (pos + len ≤ st.inode.i_size →
      ∀ bw, (osfs_write me now st buf allocs faults pos len).ret = Except.ok bw →
      (osfs_write me now st buf allocs faults pos len).st.inode.i_size =
        st.inode.i_size) := by
  obtain ⟨b1, b2, b3, b4, b5, b6, b7, b8, b9, b10, b11⟩ :=
    write_loop_basic me buf faults len st pos len 0 0 allocs _ rfl
  have key : ∀ bw, (osfs_write me now st buf allocs faults pos len).ret = Except.ok bw →
      (osfs_write me now st buf allocs faults pos len).pos = pos + bw ∧ bw ≤ len ∧
      (osfs_write me now st buf allocs faults pos len).st.inode.i_size =
        max st.inode.i_size (pos + bw) := by
    intro bw hbw
    rcases osfs_write_ret_cases me now pos len st buf allocs faults with
      ⟨e2, hLE, hret⟩ | ⟨hLE, hret⟩
    · rw [hret] at hbw
      exact absurd hbw (by simp)
    · have hbweq : (osfs_write_loop me buf faults len st pos len 0 0 allocs).bw = bw := by
        rw [hret] at hbw
        exact Except.ok.inj hbw
      refine ⟨(writeFinish_ok_pos now _ hLE).trans (by omega), by omega, ?_⟩
      refine (writeFinish_ok_size now _ hLE).trans ?_
      rw [b1]
      rw [show (osfs_write_loop me buf faults len st pos len 0 0 allocs).pos = pos + bw
        by omega]
  refine ⟨key, ?_, ?_⟩
  · intro hpos hok
    rw [(key len hok).2.2]
    omega
  · intro hb bw hok
    have h4 := (key bw hok).2.1
    rw [(key bw hok).2.2]
    omega

theorem osfs_write_size_growth_witness :
    (osfs_write 4 0 emptyState bufId [Option.some 1] noFaults 0 5).st.inode.i_size =
      emptyState.inode.i_size + 5 :=
  (osfs_write_size_growth 4 0 0 5 emptyState bufId [Option.some 1] noFaults).2.1
    (by decide) rfl

/-- Claim C1 counterexample: the claim fails as stated, without a no-seek
precondition.  Seeking one full block past the end of an empty file and
writing one byte makes the code allocate for logical index 1 while
`allocated_block_count` is 0: the count becomes 1, the entry at index 1
(beyond the valid range `0..i_blocks-1`) is populated with the fresh physical
block 7, and index 0 is skipped (still holding its stale value). -/
theorem osfs_write_sparse_skips_index :
    emptyState.inode.i_blocks = 0 ∧
    (osfs_write 4 0 emptyState bufId [Option.some 7] noFaults 4096 1).ret = Except.ok 1 ∧
    (osfs_write 4 0 emptyState bufId [Option.some 7] noFaults 4096 1).st.inode.i_blocks
      = 1 ∧
    (osfs_write 4 0 emptyState bufId
      [Option.some 7] noFaults 4096 1).st.inode.i_blocks_array 1 = 7 ∧
    (osfs_write 4 0 emptyState bufId
      [Option.some 7] noFaults 4096 1).st.inode.i_blocks_array 0 =
      emptyState.inode.i_blocks_array 0 ∧
    emptyState.inode.i_blocks_array 0 = 0 :=
  ⟨rfl, rfl, rfl, rfl, rfl, rfl⟩

/-- Claim C1 (amended with the no-seek-past-frontier precondition): when a
write starts at or before the allocated frontier, the block count never
decreases and grows by exactly one per allocator answer consumed, entries
below the initial count and entries at or beyond the final count are
untouched (no index is skipped and nothing beyond the frontier is populated),
and the final cursor again sits at or before the final frontier. -/
theorem osfs_write_sequential_allocation (me now pos len : Nat) (st : FsState)
    (buf : Nat → Nat) (allocs : List (Option Nat)) (faults : Nat → Bool)
    (hpos : pos ≤ st.inode.i_blocks * BLOCK_SIZE) :
    st.inode.i_blocks ≤
      (osfs_write me now st buf allocs faults pos len).st.inode.i_blocks ∧
    (osfs_write me now st buf allocs faults pos len).st.inode.i_blocks +
        (osfs_write me now st buf allocs faults pos len).allocs.length =
      st.inode.i_blocks + allocs.length ∧
    (∀ j, j < st.inode.i_blocks →
      (osfs_write me now st buf allocs faults pos len).st.inode.i_blocks_array j =
        st.inode.i_blocks_array j) ∧
    (∀ j, (osfs_write me now st buf allocs faults pos len).st.inode.i_blocks ≤ j →
      (osfs_write me now st buf allocs faults pos len).st.inode.i_blocks_array j =
        st.inode.i_blocks_array j) ∧
    (osfs_write me now st buf allocs faults pos len).pos ≤
      (osfs_write me now st buf allocs faults pos len).st.inode.i_blocks * BLOCK_SIZE := by
  obtain ⟨b1, b2, b3, b4, b5, b6, b7, b8, b9, b10, b11⟩ :=
    write_loop_basic me buf faults len st pos len 0 0 allocs _ rfl
  obtain ⟨s0, s1, s2, s3⟩ :=
    write_loop_seq me buf faults len st pos len 0 0 allocs _ rfl hpos
  have hw : osfs_write me now st buf allocs faults pos len =
      writeFinish now (osfs_write_loop me buf faults len st pos len 0 0 allocs) := rfl
  rcases osfs_write_ret_cases me now pos len st buf allocs faults with
    ⟨e2, hLE, hret⟩ | ⟨hLE, hret⟩
  · rw [hw, writeFinish_err_st now _ e2 hLE, writeFinish_err_pos now _ e2 hLE,
      writeFinish_err_allocs now _ e2 hLE]
    exact ⟨s0, b9, s2, s3, s1⟩
  · rw [hw, writeFinish_ok_blocks now _ hLE, writeFinish_ok_array now _ hLE,
      writeFinish_ok_pos now _ hLE, writeFinish_ok_allocs now _ hLE]
    exact ⟨s0, b9, s2, s3, s1⟩

theorem osfs_write_sequential_allocation_witness :
    emptyState.inode.i_blocks ≤
      (osfs_write 4 0 emptyState bufId [Option.some 1] noFaults 0 5).st.inode.i_blocks :=
  (osfs_write_sequential_allocation 4 0 0 5 emptyState bufId [Option.some 1] noFaults
    (by decide)).1

/-- Claim C10 counterexample: the claim fails as stated.  A zero-length write
positioned past the end of an empty file still updates the size: writing 0
bytes at position 5 on a file of size 0 returns 0 yet sets the size to 5. -/
theorem osfs_write_zero_length_changes_size :
    emptyState.inode.i_size = 0 ∧
    (osfs_write 4 99 emptyState bufId [] noFaults 5 0).ret = Except.ok 0 ∧
    (osfs_write 4 99 emptyState bufId [] noFaults 5 0).st.inode.i_size = 5 :=
  ⟨rfl, rfl, rfl⟩

/-- Claim C10 (amended): a zero-length write skips the transfer loop and
returns 0, refreshes both timestamps to `now` and marks the inode dirty,
without touching the block map, the block count, the disk bytes or the
allocator; the size becomes `max size pos` (unchanged exactly when
`pos ≤ size`, but a zero-length write positioned past the end still grows the
size to `pos`). -/
theorem osfs_write_zero_length_effects (me now pos : Nat) (st : FsState) (buf : Nat → Nat)
    (allocs : List (Option Nat)) (faults : Nat → Bool) :
    (osfs_write me now st buf allocs faults pos 0).ret = Except.ok 0 ∧
    (osfs_write me now st buf allocs faults pos 0).st.inode.i_blocks =
      st.inode.i_blocks ∧
    (osfs_write me now st buf allocs faults pos 0).st.inode.i_blocks_array =
      st.inode.i_blocks_array ∧
    (osfs_write me now st buf allocs faults pos 0).st.disk = st.disk ∧
    (osfs_write me now st buf allocs faults pos 0).allocs = allocs ∧
    (osfs_write me now st buf allocs faults pos 0).pos = pos ∧
    (osfs_write me now st buf allocs faults pos 0).st.inode.i_mtime = now ∧
    (osfs_write me now st buf allocs faults pos 0).st.inode.i_ctime = now ∧
    (osfs_write me now st buf allocs faults pos 0).st.dirty = true ∧
    (osfs_write me now st buf allocs faults pos 0).st.inode.i_size =
      max st.inode.i_size pos :=
  ⟨writeFinish_ok_ret now _ rfl, writeFinish_ok_blocks now _ rfl,
    writeFinish_ok_array now _ rfl, writeFinish_ok_disk now _ rfl,
    writeFinish_ok_allocs now _ rfl, writeFinish_ok_pos now _ rfl,
    writeFinish_ok_mtime now _ rfl, writeFinish_ok_ctime now _ rfl,
    writeFinish_ok_dirty now _ rfl, writeFinish_ok_size now _ rfl⟩

/-- One write-loop iteration on an already-mapped block with no fault. -/
lemma write_loop_step_mapped (me : Nat) (buf : Nat → Nat) (f : Nat → Bool)
    (fuel : Nat) (st : FsState) (pos len bw ci : Nat) (allocs : List (Option Nat))
    (hlen : len ≠ 0) (hcap : ¬me ≤ pos / BLOCK_SIZE)
    (hfr : ¬st.inode.i_blocks ≤ pos / BLOCK_SIZE) (hfa : f ci = false) :
    osfs_write_loop me buf f (fuel + 1) st pos len bw ci allocs =
      osfs_write_loop me buf f fuel
        { st with disk :=
            (writeBytes st.disk
              (st.inode.i_blocks_array (pos / BLOCK_SIZE) * BLOCK_SIZE + pos % BLOCK_SIZE)
              buf bw (min (BLOCK_SIZE - pos % BLOCK_SIZE) len)) }
        (pos + min (BLOCK_SIZE - pos % BLOCK_SIZE) len)
        (len - min (BLOCK_SIZE - pos % BLOCK_SIZE) len)
        (bw + min (BLOCK_SIZE - pos % BLOCK_SIZE) len) (ci + 1) allocs := by
  simp only [osfs_write_loop, chunkOf]
  rw [if_neg hlen, if_neg hcap, if_neg hfr]
  simp only []
  rw [if_neg (show ¬f ci = true by simp [hfa])]

/-- One write-loop iteration on an already-mapped block hitting a copy fault:
the call aborts with `EFAULT` keeping the current cursor and count. -/
lemma write_loop_step_fault (me : Nat) (buf : Nat → Nat) (f : Nat → Bool)
    (fuel : Nat) (st : FsState) (pos len bw ci : Nat) (allocs : List (Option Nat))
    (hlen : len ≠ 0) (hcap : ¬me ≤ pos / BLOCK_SIZE)
    (hfr : ¬st.inode.i_blocks ≤ pos / BLOCK_SIZE) (hfa : f ci = true) :
    osfs_write_loop me buf f (fuel + 1) st pos len bw ci allocs =
      ⟨st, pos, bw, allocs, Option.some Err.EFAULT⟩ := by
  simp only [osfs_write_loop, chunkOf]
  rw [if_neg hlen, if_neg hcap, if_neg hfr]
  simp only []
  rw [if_pos hfa]

/-- One read-loop iteration on a mapped block with no fault. -/
lemma read_loop_step_ok (f : Nat → Bool) (fuel : Nat) (st : FsState)
    (pos len br ci : Nat) (out : List Nat)
    (hlen : len ≠ 0) (hfr : ¬st.inode.i_blocks ≤ pos / BLOCK_SIZE) (hfa : f ci = false) :
    osfs_read_loop f (fuel + 1) st pos len br ci out =
      osfs_read_loop f fuel st (pos + min (BLOCK_SIZE - pos % BLOCK_SIZE) len)
        (len - min (BLOCK_SIZE - pos % BLOCK_SIZE) len)
        (br + min (BLOCK_SIZE - pos % BLOCK_SIZE) len) (ci + 1)
        (out ++ (List.range (min (BLOCK_SIZE - pos % BLOCK_SIZE) len)).map (fun j =>
          st.disk (st.inode.i_blocks_array (pos / BLOCK_SIZE) * BLOCK_SIZE +
            pos % BLOCK_SIZE + j))) := by
  simp only [osfs_read_loop, chunkOf]
  rw [if_neg hlen, if_neg hfr, if_neg (show ¬f ci = true by simp [hfa])]

/-- One read-loop iteration hitting a copy fault: the call aborts with
`EFAULT`, keeping the bytes and cursor accumulated so far. -/
lemma read_loop_step_fault (f : Nat → Bool) (fuel : Nat) (st : FsState)
    (pos len br ci : Nat) (out : List Nat)
    (hlen : len ≠ 0) (hfr : ¬st.inode.i_blocks ≤ pos / BLOCK_SIZE) (hfa : f ci = true) :
    osfs_read_loop f (fuel + 1) st pos len br ci out =
      ⟨st, pos, br, out, Option.some Err.EFAULT⟩ := by
  simp only [osfs_read_loop, chunkOf]
  rw [if_neg hlen, if_neg hfr, if_pos hfa]

/-- A fault on the first copy attempt of a write whose first block is
resolvable aborts the call immediately with `EFAULT` and no cursor movement. -/
lemma write_first_fault (me now pos len : Nat) (st : FsState) (buf : Nat → Nat)
    (allocs : List (Option Nat)) (faults : Nat → Bool)
    (hfa : faults 0 = true) (hlen : 0 < len) (hcap : pos / BLOCK_SIZE < me)
    (hres : pos / BLOCK_SIZE < st.inode.i_blocks ∨ allocFails allocs = false) :
    (osfs_write me now st buf allocs faults pos len).ret = Except.error Err.EFAULT ∧
    (osfs_write me now st buf allocs faults pos len).pos = pos := by
  obtain ⟨k, hk⟩ : ∃ k, len = k + 1 := ⟨len - 1, by omega⟩
  subst hk
  have hcap4 : pos / 4096 < me := hcap
  have hloop : (osfs_write_loop me buf faults (k + 1) st pos (k + 1) 0 0 allocs).err =
      Option.some Err.EFAULT ∧
      (osfs_write_loop me buf faults (k + 1) st pos (k + 1) 0 0 allocs).pos = pos := by
    simp only [osfs_write_loop, chunkOf, BLOCK_SIZE]
    rw [if_neg (show ¬(k + 1 = 0) by omega), if_neg (show ¬me ≤ pos / 4096 by omega)]
    rcases hres with hlt | hal
    · have hlt4 : pos / 4096 < st.inode.i_blocks := hlt
      rw [if_neg (show ¬st.inode.i_blocks ≤ pos / 4096 by omega)]
      simp only []
      rw [if_pos hfa]
      exact ⟨rfl, rfl⟩
    · rcases allocs with _ | ⟨ao, rest⟩
      · exact absurd hal (by simp [allocFails])
      · rcases ao with _ | p
        · exact absurd hal (by simp [allocFails])
        · by_cases hfr : st.inode.i_blocks ≤ pos / 4096
          · rw [if_pos hfr]
            simp only [allocAttempt]
            rw [if_pos hfa]
            exact ⟨rfl, rfl⟩
          · rw [if_neg hfr]
            simp only []
            rw [if_pos hfa]
            exact ⟨rfl, rfl⟩
  exact ⟨writeFinish_err_ret now _ _ hloop.1,
    (writeFinish_err_pos now _ _ hloop.1).trans hloop.2⟩

/-- A fault on the first copy attempt of an in-bounds read aborts the call
immediately with `EFAULT` and no cursor movement. -/
lemma read_first_fault (st : FsState) (faults : Nat → Bool) (pos len : Nat)
    (hfa : faults 0 = true) (hlen : 0 < len) (hpos : pos < st.inode.i_size)
    (hfr : pos / BLOCK_SIZE < st.inode.i_blocks) :
    (osfs_read st faults pos len).ret = Except.error Err.EFAULT ∧
    (osfs_read st faults pos len).pos = pos := by
  simp only [osfs_read]
  rw [if_neg (show ¬st.inode.i_size ≤ pos by omega)]
  have hfr4 : pos / 4096 < st.inode.i_blocks := hfr
  obtain ⟨m, hm⟩ : ∃ m, (if st.inode.i_size < pos + len then st.inode.i_size - pos
      else len) = m + 1 :=
    ⟨(if st.inode.i_size < pos + len then st.inode.i_size - pos else len) - 1,
      by split <;> omega⟩
  rw [hm]
  simp only [osfs_read_loop, chunkOf, BLOCK_SIZE]
  rw [if_neg (show ¬(m + 1 = 0) by omega),
    if_neg (show ¬st.inode.i_blocks ≤ pos / 4096 by omega), if_pos hfa]
  exact ⟨rfl, rfl⟩

/-- If the fault oracle is clean on the attempts before `ci + k`, faults on
attempt `ci + k`, and `k` lies below the copy-attempt count of the fault-free
control flow, then the write loop aborts with `EFAULT`: the fault is reached
and never absorbed, however many chunks succeeded before it. -/
lemma write_loop_reaches_fault (me : Nat) (buf : Nat → Nat) (f : Nat → Bool) :
    ∀ fuel st pos len bw ci allocs k,
      (∀ j, j < k → f (ci + j) = false) → f (ci + k) = true →
      k < write_attempts me fuel st.inode.i_blocks pos len allocs →
      (osfs_write_loop me buf f fuel st pos len bw ci allocs).err =
        Option.some Err.EFAULT := by
  intro fuel
  induction fuel with
  | zero =>
    intro st pos len bw ci allocs k hpre hk hlt
    exact absurd hlt (by simp [write_attempts])
  | succ n ih =>
    intro st pos len bw ci allocs k hpre hk hlt
    simp only [osfs_write_loop, chunkOf, BLOCK_SIZE]
    simp only [write_attempts, BLOCK_SIZE] at hlt
    by_cases hlen : len = 0
    · rw [if_pos hlen] at hlt
      exact absurd hlt (by omega)
    · rw [if_neg hlen] at hlt ⊢
      by_cases hcap : me ≤ pos / 4096
      · rw [if_pos hcap] at hlt
        exact absurd hlt (by omega)
      · rw [if_neg hcap] at hlt ⊢
        by_cases hfr : st.inode.i_blocks ≤ pos / 4096
        · rw [if_pos hfr] at hlt ⊢
          rcases allocs with _ | ⟨ao, rest⟩
          · simp only [allocAttempt] at hlt
            exact absurd hlt (by omega)
          · rcases ao with _ | p
            · simp only [allocAttempt] at hlt
              exact absurd hlt (by omega)
            · simp only [allocAttempt] at hlt ⊢
              rcases k with _ | k1
              · rw [if_pos (show f ci = true from by
                  have h := hk
                  rwa [Nat.add_zero] at h)]
              · have h0 : f ci = false := by
                  have h := hpre 0 (by omega)
                  rwa [Nat.add_zero] at h
                rw [if_neg (show ¬f ci = true from by simp [h0])]
                refine ih _ _ _ _ _ _ k1 ?_ ?_ ?_
                · intro j hj
                  have h := hpre (j + 1) (by omega)
                  rwa [show ci + (j + 1) = ci + 1 + j from by omega] at h
                · have h := hk
                  rwa [show ci + (k1 + 1) = ci + 1 + k1 from by omega] at h
                · exact (by omega : k1 < write_attempts me n (st.inode.i_blocks + 1)
                    (pos + min (4096 - pos % 4096) len)
                    (len - min (4096 - pos % 4096) len) rest)
        · rw [if_neg hfr] at hlt ⊢
          simp only [] at hlt ⊢
          rcases k with _ | k1
          · rw [if_pos (show f ci = true from by
              have h := hk
              rwa [Nat.add_zero] at h)]
          · have h0 : f ci = false := by
              have h := hpre 0 (by omega)
              rwa [Nat.add_zero] at h
            rw [if_neg (show ¬f ci = true from by simp [h0])]
            refine ih _ _ _ _ _ _ k1 ?_ ?_ ?_
            · intro j hj
              have h := hpre (j + 1) (by omega)
              rwa [show ci + (j + 1) = ci + 1 + j from by omega] at h
            · have h := hk
              rwa [show ci + (k1 + 1) = ci + 1 + k1 from by omega] at h
            · exact (by omega : k1 < write_attempts me n st.inode.i_blocks
                (pos + min (4096 - pos % 4096) len)
                (len - min (4096 - pos % 4096) len) allocs)

/-- Read-side analogue of `write_loop_reaches_fault`: a fault on any copy
attempt the fault-free control flow reaches aborts the read loop with
`EFAULT`. -/
lemma read_loop_reaches_fault (f : Nat → Bool) :
    ∀ fuel st pos len br ci out k,
      (∀ j, j < k → f (ci + j) = false) → f (ci + k) = true →
      k < read_attempts fuel st.inode.i_blocks pos len →
      (osfs_read_loop f fuel st pos len br ci out).err = Option.some Err.EFAULT := by
  intro fuel
  induction fuel with
  | zero =>
    intro st pos len br ci out k hpre hk hlt
    exact absurd hlt (by simp [read_attempts])
  | succ n ih =>
    intro st pos len br ci out k hpre hk hlt
    simp only [osfs_read_loop, chunkOf, BLOCK_SIZE]
    simp only [read_attempts, BLOCK_SIZE] at hlt
    by_cases hlen : len = 0
    · rw [if_pos hlen] at hlt
      exact absurd hlt (by omega)
    · rw [if_neg hlen] at hlt ⊢
      by_cases hfr : st.inode.i_blocks ≤ pos / 4096
      · rw [if_pos hfr] at hlt
        exact absurd hlt (by omega)
      · rw [if_neg hfr] at hlt ⊢
        rcases k with _ | k1
        · rw [if_pos (show f ci = true from by
            have h := hk
            rwa [Nat.add_zero] at h)]
        · have h0 : f ci = false := by
            have h := hpre 0 (by omega)
            rwa [Nat.add_zero] at h
          rw [if_neg (show ¬f ci = true from by simp [h0])]
          refine ih _ _ _ _ _ _ k1 ?_ ?_ ?_
          · intro j hj
            have h := hpre (j + 1) (by omega)
            rwa [show ci + (j + 1) = ci + 1 + j from by omega] at h
          · have h := hk
            rwa [show ci + (k1 + 1) = ci + 1 + k1 from by omega] at h
          · exact (by omega : k1 < read_attempts n st.inode.i_blocks
              (pos + min (4096 - pos % 4096) len)
              (len - min (4096 - pos % 4096) len))

/-- Claim C4: I/O faults are never absorbed.  An `EFAULT` return from a write
requires a copy-oracle fault and performs no size, timestamp or dirty-flag
update; an `EFAULT` return from a read requires a fault; and whenever the
first faulting copy attempt `k` of either call lies among the attempts its
fault-free control flow performs — any number of chunks having succeeded
before it — the call returns the `EFAULT` error, not the accumulated partial
byte count. -/
theorem osfs_io_fault_not_absorbed (me now pos len posR lenR k kR : Nat)
    (st stR : FsState) (buf : Nat → Nat) (allocs : List (Option Nat))
    (faults faultsR : Nat → Bool) :
    ((osfs_write me now st buf allocs faults pos len).ret = Except.error Err.EFAULT →
      (∃ k2, faults k2 = true) ∧
      (osfs_write me now st buf allocs faults pos len).st.inode.i_size =
        st.inode.i_size ∧
      (osfs_write me now st buf allocs faults pos len).st.inode.i_mtime =
        st.inode.i_mtime ∧
      (osfs_write me now st buf allocs faults pos len).st.inode.i_ctime =
        st.inode.i_ctime ∧
      (osfs_write me now st buf allocs faults pos len).st.dirty = st.dirty) ∧
    ((osfs_read stR faultsR posR lenR).ret = Except.error Err.EFAULT →
      ∃ k2, faultsR k2 = true) ∧
    ((∀ j, j < k → faults j = false) → faults k = true →
      k < write_attempts me len st.inode.i_blocks pos len allocs →
      (osfs_write me now st buf allocs faults pos len).ret =
        Except.error Err.EFAULT) ∧
    ((∀ j, j < kR → faultsR j = false) → faultsR kR = true →
      posR < stR.inode.i_size →
      kR < read_attempts (min lenR (stR.inode.i_size - posR)) stR.inode.i_blocks posR
        (min lenR (stR.inode.i_size - posR)) →
      (osfs_read stR faultsR posR lenR).ret = Except.error Err.EFAULT) := by
  refine ⟨?_, ?_, ?_, ?_⟩
  · intro he
    obtain ⟨b1, b2, b3, b4, b5, b6, b7, b8, b9, b10, b11⟩ :=
      write_loop_basic me buf faults len st pos len 0 0 allocs _ rfl
    rcases osfs_write_ret_cases me now pos len st buf allocs faults with
      ⟨e2, hLE, hret⟩ | ⟨hLE, hret⟩
    · rw [hret] at he
      have hee : e2 = Err.EFAULT := Except.error.inj he
      subst hee
      have hw : osfs_write me now st buf allocs faults pos len =
          writeFinish now (osfs_write_loop me buf faults len st pos len 0 0 allocs) := rfl
      rw [hw, writeFinish_err_st now _ _ hLE]
      exact ⟨b10 hLE, b1, b2, b3, b4⟩
    · rw [hret] at he
      exact absurd he (by simp)
  · intro he
    simp only [osfs_read] at he
    by_cases h : stR.inode.i_size ≤ posR
    · rw [if_pos h] at he
      exact absurd he (by simp)
    · rw [if_neg h] at he
      obtain ⟨-, -, -, -, -, i6⟩ := read_loop_basic faultsR
        (if stR.inode.i_size < posR + lenR then stR.inode.i_size - posR else lenR) stR posR
        (if stR.inode.i_size < posR + lenR then stR.inode.i_size - posR else lenR) 0 0 []
        _ rfl
      revert he
      split
      · rename_i e heq
        intro _
        exact (i6 e heq).2
      · intro he
        exact absurd he (by simp)
  · intro hpre hk hlt
    have herr := write_loop_reaches_fault me buf faults len st pos len 0 0 allocs k
      (by intro j hj; rw [Nat.zero_add]; exact hpre j hj)
      (by rw [Nat.zero_add]; exact hk) hlt
    exact writeFinish_err_ret now _ _ herr
  · intro hpre hk hplt hlt
    have hmin : (if stR.inode.i_size < posR + lenR then stR.inode.i_size - posR
        else lenR) = min lenR (stR.inode.i_size - posR) := by
      split <;> omega
    have herr := read_loop_reaches_fault faultsR (min lenR (stR.inode.i_size - posR))
      stR posR (min lenR (stR.inode.i_size - posR)) 0 0 [] kR
      (by intro j hj; rw [Nat.zero_add]; exact hpre j hj)
      (by rw [Nat.zero_add]; exact hk) hlt
    simp only [osfs_read]
    rw [if_neg (show ¬stR.inode.i_size ≤ posR by omega), hmin, herr]

/-- Concrete run of the C4 property with a mid-call fault: `faultSecond`
faults on the second copy attempt (`k = 1`) of a two-attempt write and of a
two-attempt read at position 4090 of length 100; both calls return `EFAULT`
rather than the 6 bytes already transferred. -/
theorem osfs_io_fault_not_absorbed_witness :
    (osfs_write 4 0 twoBlockState bufId [] faultSecond 4090 100).ret =
      Except.error Err.EFAULT ∧
    (osfs_read twoBlockState faultSecond 4090 100).ret =
      Except.error Err.EFAULT :=
  ⟨(osfs_io_fault_not_absorbed 4 0 4090 100 4090 100 1 1 twoBlockState twoBlockState
      bufId [] faultSecond faultSecond).2.2.1 (by decide) (by decide) (by decide),
   (osfs_io_fault_not_absorbed 4 0 4090 100 4090 100 1 1 twoBlockState twoBlockState
      bufId [] faultSecond faultSecond).2.2.2 (by decide) (by decide) (by decide)
      (by decide)⟩


/-- Claim C3: read exactness.  Under the invariant `size ≤ i_blocks *
BLOCK_SIZE` and the sequential-map invariants the code maintains, after a
write that returned the count `bw`: every fault-free read call with
`p < size` — the clamped ones with `p + l` past the end included — returns
exactly `min l (size - p)` bytes, namely the logical file content at offsets
`p ..`; the write placed `buf (o - pos)` at every offset `o` it covered, so
the returned bytes are byte-identical to the most recent successful write
there; and no read on the state ever returns more than `size - p` bytes. -/
theorem osfs_read_after_write_exact (me now pos len bw : Nat) (st : FsState)
    (buf : Nat → Nat) (allocs : List (Option Nat)) (f fR : Nat → Bool)
    (hfR : ∀ k2, fR k2 = false)
    (hpos : pos ≤ st.inode.i_blocks * BLOCK_SIZE)
    (hsz : st.inode.i_size ≤ st.inode.i_blocks * BLOCK_SIZE)
    (hinj : mapInjective st) (hfresh : allocsFresh st allocs)
    (hok : (osfs_write me now st buf allocs f pos len).ret = Except.ok bw) :
    (∀ p l, p < (osfs_write me now st buf allocs f pos len).st.inode.i_size →
      (osfs_read (osfs_write me now st buf allocs f pos len).st fR p l).ret =
        Except.ok (min l
          ((osfs_write me now st buf allocs f pos len).st.inode.i_size - p)) ∧
      (osfs_read (osfs_write me now st buf allocs f pos len).st fR p l).out.length =
        min l ((osfs_write me now st buf allocs f pos len).st.inode.i_size - p) ∧
      (osfs_read (osfs_write me now st buf allocs f pos len).st fR p l).out =
        (List.range (min l
            ((osfs_write me now st buf allocs f pos len).st.inode.i_size - p))).map
          (fun j => logicalByte (osfs_write me now st buf allocs f pos len).st
            (p + j))) ∧
    (∀ o, pos ≤ o → o < pos + bw →
      logicalByte (osfs_write me now st buf allocs f pos len).st o = buf (o - pos)) ∧
    (∀ p l,
      (osfs_read (osfs_write me now st buf allocs f pos len).st fR p l).out.length ≤
        (osfs_write me now st buf allocs f pos len).st.inode.i_size - p) := by
  rcases osfs_write_ret_cases me now pos len st buf allocs f with
    ⟨e, herr2, hret⟩ | ⟨herr, hret⟩
  · rw [hok] at hret
    exact Except.noConfusion hret
  · rw [hok] at hret
    have hbw := Except.ok.inj hret
    obtain ⟨hb1, hb2, hb3, hb4, hb5, hb6, hb7, hb8, hb9, hb10, hb11⟩ :=
      write_loop_basic me buf f len st pos len 0 0 allocs _ rfl
    obtain ⟨hs1, hs2, hs3, hs4⟩ :=
      write_loop_seq me buf f len st pos len 0 0 allocs _ rfl hpos
    have hpos4 : pos ≤ st.inode.i_blocks * 4096 := hpos
    have hsz4 : st.inode.i_size ≤ st.inode.i_blocks * 4096 := hsz
    have hs24 : (osfs_write_loop me buf f len st pos len 0 0 allocs).pos ≤
        (osfs_write_loop me buf f len st pos len 0 0 allocs).st.inode.i_blocks *
          4096 := hs2
    have hszle : (osfs_write me now st buf allocs f pos len).st.inode.i_size ≤
        (osfs_write me now st buf allocs f pos len).st.inode.i_blocks *
          BLOCK_SIZE := by
      show (writeFinish now
          (osfs_write_loop me buf f len st pos len 0 0 allocs)).st.inode.i_size ≤
        (writeFinish now
          (osfs_write_loop me buf f len st pos len 0 0 allocs)).st.inode.i_blocks *
          4096
      rw [writeFinish_ok_size now _ herr, writeFinish_ok_blocks now _ herr]
      omega
    refine ⟨?_, ?_, ?_⟩
    · intro p l hplt
      obtain ⟨hr1, hr2, hr3, hr4⟩ :=
        osfs_read_ok_char (osfs_write me now st buf allocs f pos len).st fR p l
          hfR hszle hplt
      refine ⟨hr1, ?_, hr2⟩
      rw [hr2]
      simp
    · intro o ho1 ho2
      have hcontent := write_loop_content me buf f len st pos len 0 0 allocs _ rfl
        hpos hinj hfresh (o - pos) (by omega)
      rw [Nat.zero_add] at hcontent
      rw [show pos + (o - pos) = o from by omega] at hcontent
      refine Eq.trans ?_ hcontent
      show logicalByte
          (writeFinish now (osfs_write_loop me buf f len st pos len 0 0 allocs)).st
            o =
        logicalByte (osfs_write_loop me buf f len st pos len 0 0 allocs).st o
      simp only [logicalByte]
      rw [writeFinish_ok_disk now _ herr, writeFinish_ok_array now _ herr]
    · intro p l
      exact osfs_read_le_size (osfs_write me now st buf allocs f pos len).st fR p l

/-- Concrete run of the C3 property: writing 5 bytes at position 0 of an
empty file with one fresh block available, then reading 9 bytes from
position 0, returns exactly `min 9 (5 - 0) = 5` bytes — the clamped count —
and the write placed `bufId 2` at offset 2. -/
theorem osfs_read_after_write_exact_witness :
    (osfs_read (osfs_write 4 0 emptyState bufId [Option.some 1] noFaults 0 5).st
      noFaults 0 9).ret = Except.ok 5 ∧
    logicalByte (osfs_write 4 0 emptyState bufId [Option.some 1] noFaults 0 5).st 2 =
      bufId 2 :=
  ⟨(((osfs_read_after_write_exact 4 0 0 5 5 emptyState bufId [Option.some 1]
      noFaults noFaults (fun _ => rfl) (Nat.zero_le _) (Nat.zero_le _)
      (fun i j hi _ _ => absurd hi (Nat.not_lt_zero i))
      ⟨by decide, fun p hp i hi => absurd hi (Nat.not_lt_zero i)⟩
      rfl).1 0 9 (by decide)).1).trans rfl,
   ((osfs_read_after_write_exact 4 0 0 5 5 emptyState bufId [Option.some 1]
      noFaults noFaults (fun _ => rfl) (Nat.zero_le _) (Nat.zero_le _)
      (fun i j hi _ _ => absurd hi (Nat.not_lt_zero i))
      ⟨by decide, fun p hp i hi => absurd hi (Nat.not_lt_zero i)⟩
      rfl).2.1 2 (Nat.zero_le 2) (by decide)).trans rfl⟩
